import Mathlib

/-!
Shallow embedding of the squid SBuf string-buffer component.

The repository ships only the class declaration (src/SBuf.h); the member
bodies live outside the provided sources.  Following the specification, we
model the two-layer design faithfully: a heap of reference-counted MemBlobs
and a list of SBuf views `{store, off, len}` into them.  The reference count
of a blob is, by definition, the number of views whose `store` handle points
at it, which is exactly what the C++ refcount maintains.  Machine integers
(`size_type = int32_t`) are modelled as `Int` at the API boundary (positions
may be negative, `npos = -1`) and as `Nat` internally; all quantities stay
far below 2^31 thanks to the `maxSize` cap, so no wraparound arises.
-/

/-- Modelled from the spec: a reference-counted heap byte region with a fixed
`capacity` and a `size` cursor; bytes `[0, size)` are initialized.  The byte
payload is a total function so that writes beyond `size` (the transient
`c_str` terminator) are representable.  The refcount is not stored: it is
computed from the set of live views (see `refcount`). -/
structure MemBlob where
  capacity : Nat
  size : Nat
  data : Nat → Nat

/-- An SBuf view: a store handle (index into the heap), an offset and a
length.  Mirrors the private fields `store_`, `off_`, `len_` of `class SBuf`
in src/SBuf.h. -/
structure SBufView where
  store : Nat
  off : Nat
  len : Nat
deriving DecidableEq

/-- The whole-program state the SBuf operations act on: the heap of blobs and
the list of live SBuf views.  An operation "on SBuf i" reads and updates
`views[i]` and the blobs. -/
structure SBufState where
  blobs : List MemBlob
  views : List SBufView

/-- `SBuf::maxSize = 0xfffffff` (256 MiB), from src/SBuf.h line 115. -/
def maxSize : Nat := 0xfffffff

/-- `SBuf::npos = -1`, from src/SBuf.h line 112 (`size_type` is `int32_t`). -/
def npos : Int := -1

/-- The view stored at index `i` (a default empty view out of range). -/
def viewAt (s : SBufState) (i : Nat) : SBufView :=
  s.views.getD i ⟨0, 0, 0⟩

/-- The blob stored at index `b` (a default empty blob out of range). -/
def blobAt (s : SBufState) (b : Nat) : MemBlob :=
  s.blobs.getD b ⟨0, 0, fun _ => 0⟩

/-- Modelled from the spec: the reference count of blob `b` is the number of
live views whose store handle is `b`. -/
def refcount (s : SBufState) (b : Nat) : Nat :=
  s.views.countP (fun v => v.store == b)

/-- The `len` bytes a window `[off, off+len)` exposes of a byte payload. -/
def windowRead (d : Nat → Nat) (off len : Nat) : List Nat :=
  (List.range len).map (fun k => d (off + k))

/-- The byte sequence observed through view `i`: the core observable of an
SBuf (`rawContent()[0, length())`). -/
def readView (s : SBufState) (i : Nat) : List Nat :=
  windowRead (blobAt s (viewAt s i).store).data (viewAt s i).off (viewAt s i).len

/-- Replace view `i` (no-op out of range, like `List.set`). -/
def updView (s : SBufState) (i : Nat) (v : SBufView) : SBufState :=
  { s with views := s.views.set i v }

/-- Replace blob `b`. -/
def updBlob (s : SBufState) (b : Nat) (m : MemBlob) : SBufState :=
  { s with blobs := s.blobs.set b m }

/-- Allocate a fresh blob at index `s.blobs.length`. -/
def pushBlob (s : SBufState) (m : MemBlob) : SBufState :=
  { s with blobs := s.blobs ++ [m] }

/-- Register a fresh view at index `s.views.length`. -/
def pushView (s : SBufState) (v : SBufView) : SBufState :=
  { s with views := s.views ++ [v] }

/-- Modelled from the spec (4.2.2): capacity policy for a desired size `d`:
geometric growth (doubling), capped at `maxSize`.  For any `d ≤ maxSize` the
result is `≥ d` and `≤ maxSize`. -/
def estimateCapacity (d : Nat) : Nat :=
  min maxSize (2 * max d 1)

/-- Modelled from the spec (4.1): `MemBlob::append` writes the bytes at the
`size` cursor and advances it.  (The SBuf layer only calls it with
`size + n ≤ capacity`.) -/
def blobWriteTail (b : MemBlob) (bytes : List Nat) : MemBlob :=
  { b with
    size := b.size + bytes.length
    data := fun k =>
      if b.size ≤ k ∧ k < b.size + bytes.length then bytes.getD (k - b.size) 0
      else b.data k }

/-- Write one byte of a blob in place (used by `setAt` and `c_str`). -/
def blobSetByte (b : MemBlob) (idx val : Nat) : MemBlob :=
  { b with data := fun k => if k = idx then val else b.data k }

/-- The exceptions SBuf operations surface (src/SBuf.h documents
`SBufTooBigException` and `OutOfBoundsException`). -/
inductive SBufError where
  | SBufTooBigException
  | OutOfBoundsException
deriving DecidableEq

/-- Modelled from the spec (4.2.4, step "append in place"): copy the bytes to
`store.data + store.size`, advance `store.size` by `n` and `len` by `n`. -/
def appendInPlace (s : SBufState) (i : Nat) (bytes : List Nat) : SBufState :=
  let v := viewAt s i
  let b := blobAt s v.store
  updView (updBlob s v.store (blobWriteTail b bytes)) i
    { v with len := v.len + bytes.length }

/-- Modelled from the spec (4.2.3): `cow(minCapacity)`.  Fast path: the store
is uniquely owned, the view is the whole initialized region starting at 0 and
the capacity suffices — no copy.  Slow path: allocate a blob of capacity
`estimateCapacity (max len minCapacity)`, copy the `len` viewed bytes to
offset 0, re-seat the view on it (`off = 0`, `store.size = len`). -/
def cowOp (s : SBufState) (i : Nat) (minCapacity : Nat) : SBufState :=
  let v := viewAt s i
  let b := blobAt s v.store
  if refcount s v.store = 1 ∧ v.off = 0 ∧ v.len = b.size ∧ minCapacity ≤ b.capacity then
    s
  else
    let nb : MemBlob :=
      { capacity := estimateCapacity (max v.len minCapacity)
        size := v.len
        data := fun k => if k < v.len then b.data (v.off + k) else 0 }
    updView (pushBlob s nb) i { store := s.blobs.length, off := 0, len := v.len }

/-- Modelled from the spec (4.2.4): `append(bytes, n)`.  No-op when `n = 0`;
fail with `SBufTooBigException` when `len + n > maxSize`; append in place when
the append-ownership rule (`refcount(store) = 1` and `off + len = store.size`)
holds and the spare tail capacity suffices; otherwise cow with
`minCapacity = len + n` and then append in place. -/
def appendEx (s : SBufState) (i : Nat) (bytes : List Nat) :
    Except SBufError SBufState :=
  let v := viewAt s i
  let b := blobAt s v.store
  let n := bytes.length
  if n = 0 then .ok s
  else if maxSize < v.len + n then .error .SBufTooBigException
  else if refcount s v.store = 1 ∧ v.off + v.len = b.size ∧ n ≤ b.capacity - b.size then
    .ok (appendInPlace s i bytes)
  else
    .ok (appendInPlace (cowOp s i (v.len + n)) i bytes)

/-- Modelled from the spec (4.2.5): checked read `at(p)`: fails with
`OutOfBoundsException` when `p < 0 ∨ p ≥ len`, else returns
`store.data[off + p]`. -/
def atEx (s : SBufState) (i : Nat) (p : Int) : Except SBufError Nat :=
  let v := viewAt s i
  if p < 0 ∨ (v.len : Int) ≤ p then .error .OutOfBoundsException
  else .ok ((blobAt s v.store).data (v.off + p.toNat))

/-- Modelled from the spec (4.2.5): `setAt(p, c)`: checked bounds, then
`cow(len)` to guarantee exclusive ownership, then `store.data[off+p] = c`;
does not grow `len`. -/
def setAtEx (s : SBufState) (i : Nat) (p : Int) (c : Nat) :
    Except SBufError SBufState :=
  let v := viewAt s i
  if p < 0 ∨ (v.len : Int) ≤ p then .error .OutOfBoundsException
  else
    let s1 := cowOp s i v.len
    let v1 := viewAt s1 i
    .ok (updBlob s1 v1.store (blobSetByte (blobAt s1 v1.store) (v1.off + p.toNat) c))

/-- Modelled from the spec (4.2.1): `clear()` resets the view to empty
(`off = 0`, `len = 0`), keeping the store handle (memory freed lazily). -/
def clearOp (s : SBufState) (i : Nat) : SBufState :=
  updView s i { store := (viewAt s i).store, off := 0, len := 0 }

/-- Modelled from the spec (4.2.11): `Printf` replaces the content: clear,
then append the formatted bytes (the formatting itself is an external
collaborator; we take the produced byte sequence as input). -/
def printfOp (s : SBufState) (i : Nat) (bytes : List Nat) : SBufState :=
  let s1 := clearOp s i
  match appendEx s1 i bytes with
  | .ok s2 => s2
  | .error _ => s1

/-- The mutating operations quantified over by the COW isolation property. -/
inductive SBufOp where
  | app : List Nat → SBufOp
  | sets : Int → Nat → SBufOp
  | prf : List Nat → SBufOp

/-- Run one mutating operation on view `i`; on failure the receiver is kept
unchanged (strong guarantee, spec section 7). -/
def applyOp (s : SBufState) (i : Nat) : SBufOp → SBufState
  | .app bytes =>
    match appendEx s i bytes with
    | .ok s' => s'
    | .error _ => s
  | .sets p c =>
    match setAtEx s i p c with
    | .ok s' => s'
    | .error _ => s
  | .prf bytes => printfOp s i bytes

/-- Run a sequence of mutating operations on view `i`. -/
def applyOps (s : SBufState) (i : Nat) (ops : List SBufOp) : SBufState :=
  ops.foldl (fun t op => applyOp t i op) s

/-- Modelled from the spec (4.2.1): assignment `dst = src` shares the store
handle and copies `off`, `len`. -/
def assignOp (s : SBufState) (dst src : Nat) : SBufState :=
  updView s dst (viewAt s src)

/-- Well-formedness: the invariants the spec states for every blob and view
(section 8, invariant 1): `size ≤ capacity ≤ maxSize`, store handles valid,
`len ≤ maxSize`, `off + len ≤ store.size`. -/
def WfState (s : SBufState) : Prop :=
  (∀ m ∈ s.blobs, m.size ≤ m.capacity ∧ m.capacity ≤ maxSize) ∧
  (∀ v ∈ s.views,
    v.store < s.blobs.length ∧ v.len ≤ maxSize ∧
    v.off + v.len ≤ (blobAt ⟨s.blobs, s.views⟩ v.store).size)

instance (s : SBufState) : Decidable (WfState s) := by
  unfold WfState; infer_instance

/-- Modelled from the spec (4.2.6) and the src/SBuf.h docs for `chop`
(lines 422-433: `n = npos` means "to end of SBuf"): `substr(pos, n)` clamps
`pos` to `[0, len]` and `n` to `[0, len - pos]`, and returns a fresh view
sharing the store.  The new view is registered at index `s.views.length`. -/
def substrOp (s : SBufState) (i : Nat) (pos n : Int) : SBufState :=
  let v := viewAt s i
  let p : Nat := min (max pos 0).toNat v.len
  let k : Nat := if n = npos then v.len - p else min (max n 0).toNat (v.len - p)
  pushView s { store := v.store, off := v.off + p, len := k }

/-- The content claim C5 predicts for `substr(pos, n)`: the byte range
`a[pos .. pos + min(n, a.len - pos))` after clamping `pos` to `[0, a.len]`,
read directly off the claim's words (`min` taken over the signed size type,
an empty range when negative). -/
def substrClaim (s : SBufState) (i : Nat) (pos n : Int) : List Nat :=
  let v := viewAt s i
  let p : Nat := (min (max pos 0) (v.len : Int)).toNat
  ((readView s i).drop p).take (min n ((v.len : Int) - (p : Int))).toNat

/-- Modelled from the spec (4.2.6) and the src/SBuf.h docs for `consume`
(lines 291-300: consume `n` chars at the head or to the end, whichever is
shorter; `npos` means "to the end"): the receiver's `off` advances by
`min(n, len)` and its `len` decreases by the same amount; a fresh view over
the consumed head (sharing the store) is registered at `s.views.length`. -/
def consumeOp (s : SBufState) (i : Nat) (n : Int) : SBufState :=
  let v := viewAt s i
  let k : Nat := if n = npos then v.len else min (max n 0).toNat v.len
  pushView (updView s i { store := v.store, off := v.off + k, len := v.len - k })
    { store := v.store, off := v.off, len := k }

/-- The head-size claim C6 predicts for `consume(n)`: `min(n, a.len)` over the
signed size type (so the sentinel `npos = -1` yields an empty head), read
directly off the claim's words. -/
def consumeClaimLen (s : SBufState) (i : Nat) (n : Int) : Nat :=
  (min n ((viewAt s i).len : Int)).toNat

/-- The case-sensitivity selector, from src/SBuf.h lines 55-58. -/
inductive SBufCaseSensitive where
  | caseSensitive
  | caseInsensitive
deriving DecidableEq

/-- ASCII `tolower`, locale-independent as the spec recommends (4.2.12,
section 9). -/
def asciiLower (c : Nat) : Nat :=
  if 65 ≤ c ∧ c ≤ 90 then c + 32 else c

/-- Byte normalization done before comparing (spec 4.2.7). -/
def normByte (cs : SBufCaseSensitive) (c : Nat) : Nat :=
  match cs with
  | .caseSensitive => c
  | .caseInsensitive => asciiLower c

/-- Modelled from the spec (4.2.7): lexicographic comparison of two byte
sequences: scan for the first differing (normalized) byte, and on a tie the
shorter sequence is smaller. -/
def cmpBytes (cs : SBufCaseSensitive) : List Nat → List Nat → Int
  | [], [] => 0
  | [], _ :: _ => -1
  | _ :: _, [] => 1
  | a :: as, b :: bs =>
    if normByte cs a < normByte cs b then -1
    else if normByte cs b < normByte cs a then 1
    else cmpBytes cs as bs

/-- The number of bytes of a view that take part in an `n`-limited compare:
`len` itself when `n = npos` (compare to end-of-string, src/SBuf.h line 268),
else `min len n`. -/
def effLen (len : Nat) (n : Int) : Nat :=
  if n = npos then len else min len (max n 0).toNat

/-- Modelled from the spec (4.2.7): `a.compare(b, cs, n)`: the views are
first truncated to at most `n` bytes (str(case)cmp-style, src/SBuf.h lines
265-273); if both truncated views point at the same store with the same
offset and length the result is 0 without a scan; otherwise the truncated
byte sequences are compared lexicographically, tie broken by the truncated
lengths. -/
def compareOp (s : SBufState) (i j : Nat) (cs : SBufCaseSensitive) (n : Int) : Int :=
  let a := viewAt s i
  let b := viewAt s j
  let ea := effLen a.len n
  let eb := effLen b.len n
  if a.store = b.store ∧ a.off = b.off ∧ ea = eb then 0
  else cmpBytes cs ((readView s i).take ea) ((readView s j).take eb)

/-- The result claim C7 predicts for `compare`: scan at most
`min(len_a, len_b, n)` (normalized) bytes and, on a tie, return the sign of
`len_a - len_b` — read directly off the claim's words. -/
def compareClaim (s : SBufState) (i j : Nat) (cs : SBufCaseSensitive) (n : Int) : Int :=
  let a := viewAt s i
  let b := viewAt s j
  let m := (min (min (a.len : Int) (b.len : Int)) n).toNat
  let r := cmpBytes cs ((readView s i).take m) ((readView s j).take m)
  if r = 0 then Int.sign ((a.len : Int) - (b.len : Int)) else r

/-- Modelled from the spec (4.2.7): `a.startsWith(b, cs)` is true iff
`a.len ≥ b.len` and `a.compare(b, cs, b.len) = 0`. -/
def startsWithOp (s : SBufState) (i j : Nat) (cs : SBufCaseSensitive) : Bool :=
  decide ((viewAt s j).len ≤ (viewAt s i).len) &&
    decide (compareOp s i j cs ((viewAt s j).len : Int) = 0)

/-- Modelled from the spec (4.2.7): `operator ==` compares case-sensitively
to end-of-string. -/
def eqOp (s : SBufState) (i j : Nat) : Bool :=
  decide (compareOp s i j .caseSensitive npos = 0)

/-- Modelled from the spec (4.2.9): `c_str()`.  Fast path: the view ends at
the append frontier, there is spare capacity and the store is uniquely owned:
write a 0 at `store.size` without advancing `store.size`.  Otherwise cow with
`minCapacity = len + 1` (which fails above `maxSize`) and write the 0 past
`len` in the freshly owned blob.  Returns the new state together with the
`len + 1` bytes readable through the returned pointer. -/
def cStrEx (s : SBufState) (i : Nat) : Except SBufError (SBufState × List Nat) :=
  let v := viewAt s i
  let b := blobAt s v.store
  if v.off + v.len = b.size ∧ b.size < b.capacity ∧ refcount s v.store = 1 then
    let s1 := updBlob s v.store (blobSetByte b b.size 0)
    .ok (s1, windowRead (blobAt s1 v.store).data v.off (v.len + 1))
  else if maxSize < v.len + 1 then .error .SBufTooBigException
  else
    let s1 := cowOp s i (v.len + 1)
    let v1 := viewAt s1 i
    let s2 := updBlob s1 v1.store (blobSetByte (blobAt s1 v1.store) v1.len 0)
    .ok (s2, windowRead (blobAt s2 v1.store).data v1.off (v.len + 1))

/-- Linear forward scan for byte `c`, from index `k`, over `remaining` more
positions of the window of `d` starting at `off`. -/
def scanFrom (d : Nat → Nat) (off c k : Nat) : Nat → Option Nat
  | 0 => none
  | r + 1 => if d (off + k) = c then some k else scanFrom d off c (k + 1) r

/-- Modelled from the spec (4.2.8) and the src/SBuf.h docs (lines 451-459):
`find(c, startPos)`: `npos` when `startPos = npos`; otherwise a linear
forward scan from `max(startPos, 0)`, returning the first index whose byte is
`c`, or `npos` on a miss. -/
def findOp (s : SBufState) (i : Nat) (c : Nat) (startPos : Int) : Int :=
  if startPos = npos then npos
  else
    let v := viewAt s i
    let start := (max startPos 0).toNat
    match scanFrom (blobAt s v.store).data v.off c start (v.len - start) with
    | some k => (k : Int)
    | none => npos

/-- Modelled from the spec and the src/SBuf.h docs (lines 392-397):
`plength()` returns `length()` as a signed `int`, failing with
`SBufTooBigException` if it does not fit. -/
def plengthEx (s : SBufState) (i : Nat) : Except SBufError Int :=
  if (2 ^ 31 - 1 : Nat) < (viewAt s i).len then .error .SBufTooBigException
  else .ok ((viewAt s i).len : Int)

/-- Modelled from the spec (4.2.1): construction from a raw byte sequence:
allocate a fresh blob of capacity `estimateCapacity n` (failing above
`maxSize`), copy the bytes, register a view with `off = 0`, `len = n`. -/
def fromBytes (s : SBufState) (bytes : List Nat) : Except SBufError SBufState :=
  if maxSize < bytes.length then .error .SBufTooBigException
  else
    .ok (pushView
      (pushBlob s
        { capacity := estimateCapacity bytes.length
          size := bytes.length
          data := fun k => bytes.getD k 0 })
      { store := s.blobs.length, off := 0, len := bytes.length })

/-- The state with no blobs and no views. -/
def emptyState : SBufState := ⟨[], []⟩

section ListHelpers

variable {α : Type _}

theorem getD_set_self (l : List α) (i : Nat) (v d : α) (h : i < l.length) :
    (l.set i v).getD i d = v := by
  simp [List.getD_eq_getElem?_getD, List.getElem?_set_self, h]

theorem getD_set_ne (l : List α) (i j : Nat) (v d : α) (h : i ≠ j) :
    (l.set i v).getD j d = l.getD j d := by
  simp [List.getD_eq_getElem?_getD, List.getElem?_set_ne, h]

theorem getD_append_lt (l l2 : List α) (i : Nat) (d : α) (h : i < l.length) :
    (l ++ l2).getD i d = l.getD i d := by
  simp [List.getD_eq_getElem?_getD, List.getElem?_append, h]

theorem getD_append_len (l : List α) (x d : α) :
    (l ++ [x]).getD l.length d = x := by
  simp [List.getD_eq_getElem?_getD]

theorem getD_eq_getElem (l : List α) (i : Nat) (d : α) (h : i < l.length) :
    l.getD i d = l[i] := by
  simp [List.getD_eq_getElem?_getD, List.getElem?_eq_getElem, h]

/-- Two distinct positions satisfying a predicate force a count of at least
two (the refcount of a store shared by two distinct views is at least 2). -/
theorem two_le_countP (p : α → Bool) :
    ∀ (l : List α) (i j : Nat), i < j → (hj : j < l.length) →
      (hi : i < l.length) → p l[i] → p l[j] → 2 ≤ l.countP p := by
  intro l
  induction l with
  | nil => intro i j _ hj; simp at hj
  | cons a t ih =>
    intro i j hij hj hi hpi hpj
    match i, j with
    | 0, j + 1 =>
      simp only [List.getElem_cons_zero] at hpi
      simp only [List.getElem_cons_succ] at hpj
      have hj' : j < t.length := by simpa using hj
      have h1 : 1 ≤ t.countP p := by
        have : 0 < t.countP p := by
          rw [List.countP_pos_iff]
          exact ⟨t[j], List.getElem_mem _, hpj⟩
        omega
      rw [List.countP_cons_of_pos _ _ hpi]
      omega
    | i + 1, j + 1 =>
      simp only [List.getElem_cons_succ] at hpi hpj
      have := ih i j (by omega) (by simpa using hj) (by simpa using hi) hpi hpj
      by_cases hpa : p a
      · rw [List.countP_cons_of_pos _ _ hpa]; omega
      · rw [List.countP_cons_of_neg _ _ (by simpa using hpa)]; omega

/-- If exactly position `i` of the updated list satisfies the predicate, the
count is 1 (unique ownership of a freshly allocated store). -/
theorem countP_set_eq_one (p : α → Bool) :
    ∀ (l : List α) (i : Nat) (v : α), i < l.length → p v →
      (∀ w ∈ l, ¬ p w) → (l.set i v).countP p = 1 := by
  intro l
  induction l with
  | nil => intro i v h; simp at h
  | cons a t ih =>
    intro i v hi hpv hall
    match i with
    | 0 =>
      simp only [List.set_cons_zero]
      rw [List.countP_cons_of_pos _ _ hpv, List.countP_eq_zero.2 ?_]
      · intro w hw; exact hall w (List.mem_cons_of_mem a hw)
    | i + 1 =>
      simp only [List.set_cons_succ]
      have hpa : ¬ p a := hall a (List.mem_cons_self a t)
      rw [List.countP_cons_of_neg _ _ (by simpa using hpa)]
      exact ih i v (by simpa using hi) hpv (fun w hw => hall w (List.mem_cons_of_mem a hw))

end ListHelpers

section WindowHelpers

@[simp]
theorem windowRead_length (d : Nat → Nat) (off len : Nat) :
    (windowRead d off len).length = len := by
  simp [windowRead]

theorem windowRead_getElem (d : Nat → Nat) (off len k : Nat)
    (h : k < (windowRead d off len).length) :
    (windowRead d off len)[k] = d (off + k) := by
  simp [windowRead]

theorem windowRead_congr {d1 d2 : Nat → Nat} (off len : Nat)
    (h : ∀ k, k < len → d1 (off + k) = d2 (off + k)) :
    windowRead d1 off len = windowRead d2 off len := by
  unfold windowRead
  exact List.map_congr_left (fun k hk => h k (List.mem_range.1 hk))

theorem windowRead_add (d : Nat → Nat) (off a b : Nat) :
    windowRead d off (a + b) = windowRead d off a ++ windowRead d (off + a) b := by
  unfold windowRead
  rw [List.range_add, List.map_append, List.map_map]
  congr 1
  apply List.map_congr_left
  intro k _
  simp [Nat.add_assoc]

theorem windowRead_zero (d : Nat → Nat) (off : Nat) : windowRead d off 0 = [] := rfl

theorem windowRead_getD_self (l : List Nat) :
    windowRead (fun k => l.getD k 0) 0 l.length = l := by
  apply List.ext_getElem
  · simp
  · intro k h1 h2
    rw [windowRead_getElem _ _ _ _ h1]
    simp only [Nat.zero_add]
    exact getD_eq_getElem l k 0 h2

theorem windowRead_take (d : Nat → Nat) (off len m : Nat) :
    (windowRead d off len).take m = windowRead d off (min m len) := by
  unfold windowRead
  rw [← List.map_take, List.take_range]

theorem windowRead_drop (d : Nat → Nat) (off len m : Nat) :
    (windowRead d off len).drop m = windowRead d (off + m) (len - m) := by
  apply List.ext_getElem
  · simp
  · intro k h1 h2
    simp only [List.getElem_drop]
    rw [windowRead_getElem _ _ _ _ (by simp at h1 ⊢; omega)]
    rw [windowRead_getElem _ _ _ _ h2]
    ring_nf

end WindowHelpers

section StateHelpers

@[simp]
theorem views_updView (s : SBufState) (i : Nat) (v : SBufView) :
    (updView s i v).views = s.views.set i v := rfl

@[simp]
theorem blobs_updView (s : SBufState) (i : Nat) (v : SBufView) :
    (updView s i v).blobs = s.blobs := rfl

@[simp]
theorem views_updBlob (s : SBufState) (b : Nat) (m : MemBlob) :
    (updBlob s b m).views = s.views := rfl

@[simp]
theorem blobs_updBlob (s : SBufState) (b : Nat) (m : MemBlob) :
    (updBlob s b m).blobs = s.blobs.set b m := rfl

@[simp]
theorem views_pushBlob (s : SBufState) (m : MemBlob) :
    (pushBlob s m).views = s.views := rfl

@[simp]
theorem blobs_pushBlob (s : SBufState) (m : MemBlob) :
    (pushBlob s m).blobs = s.blobs ++ [m] := rfl

@[simp]
theorem views_pushView (s : SBufState) (v : SBufView) :
    (pushView s v).views = s.views ++ [v] := rfl

@[simp]
theorem blobs_pushView (s : SBufState) (v : SBufView) :
    (pushView s v).blobs = s.blobs := rfl

theorem viewAt_updView_self (s : SBufState) (i : Nat) (v : SBufView)
    (h : i < s.views.length) : viewAt (updView s i v) i = v :=
  getD_set_self s.views i v ⟨0, 0, 0⟩ h

theorem viewAt_updView_ne (s : SBufState) (i j : Nat) (v : SBufView)
    (h : i ≠ j) : viewAt (updView s i v) j = viewAt s j :=
  getD_set_ne s.views i j v ⟨0, 0, 0⟩ h

theorem viewAt_updBlob (s : SBufState) (b : Nat) (m : MemBlob) (j : Nat) :
    viewAt (updBlob s b m) j = viewAt s j := rfl

theorem viewAt_pushBlob (s : SBufState) (m : MemBlob) (j : Nat) :
    viewAt (pushBlob s m) j = viewAt s j := rfl

theorem viewAt_pushView_lt (s : SBufState) (v : SBufView) (j : Nat)
    (h : j < s.views.length) : viewAt (pushView s v) j = viewAt s j :=
  getD_append_lt s.views [v] j ⟨0, 0, 0⟩ h

theorem viewAt_pushView_len (s : SBufState) (v : SBufView) :
    viewAt (pushView s v) s.views.length = v :=
  getD_append_len s.views v ⟨0, 0, 0⟩

theorem blobAt_updView (s : SBufState) (i : Nat) (v : SBufView) (b : Nat) :
    blobAt (updView s i v) b = blobAt s b := rfl

theorem blobAt_pushView (s : SBufState) (v : SBufView) (b : Nat) :
    blobAt (pushView s v) b = blobAt s b := rfl

theorem blobAt_updBlob_self (s : SBufState) (b : Nat) (m : MemBlob)
    (h : b < s.blobs.length) : blobAt (updBlob s b m) b = m :=
  getD_set_self s.blobs b m ⟨0, 0, fun _ => 0⟩ h

theorem blobAt_updBlob_ne (s : SBufState) (b b' : Nat) (m : MemBlob)
    (h : b ≠ b') : blobAt (updBlob s b m) b' = blobAt s b' :=
  getD_set_ne s.blobs b b' m ⟨0, 0, fun _ => 0⟩ h

theorem blobAt_pushBlob_lt (s : SBufState) (m : MemBlob) (b : Nat)
    (h : b < s.blobs.length) : blobAt (pushBlob s m) b = blobAt s b :=
  getD_append_lt s.blobs [m] b ⟨0, 0, fun _ => 0⟩ h

theorem blobAt_pushBlob_len (s : SBufState) (m : MemBlob) :
    blobAt (pushBlob s m) s.blobs.length = m :=
  getD_append_len s.blobs m ⟨0, 0, fun _ => 0⟩

theorem refcount_updBlob (s : SBufState) (b : Nat) (m : MemBlob) (b' : Nat) :
    refcount (updBlob s b m) b' = refcount s b' := rfl

theorem refcount_pushBlob (s : SBufState) (m : MemBlob) (b' : Nat) :
    refcount (pushBlob s m) b' = refcount s b' := rfl

theorem readView_congr_state {s1 s2 : SBufState} (i j : Nat)
    (hv : viewAt s1 i = viewAt s2 j)
    (hd : ∀ k, k < (viewAt s2 j).len →
      (blobAt s1 (viewAt s1 i).store).data ((viewAt s1 i).off + k) =
      (blobAt s2 (viewAt s2 j).store).data ((viewAt s2 j).off + k)) :
    readView s1 i = readView s2 j := by
  unfold readView
  rw [hv]
  exact windowRead_congr _ _ (fun k hk => by rw [hv] at hd; exact hd k hk)

theorem viewAt_mem (s : SBufState) (i : Nat) (h : i < s.views.length) :
    viewAt s i ∈ s.views := by
  unfold viewAt
  rw [getD_eq_getElem _ _ _ h]
  exact List.getElem_mem _

theorem blobAt_mem (s : SBufState) (b : Nat) (h : b < s.blobs.length) :
    blobAt s b ∈ s.blobs := by
  unfold blobAt
  rw [getD_eq_getElem _ _ _ h]
  exact List.getElem_mem _

/-- Unpack the well-formedness facts for one valid view. -/
theorem WfState.view_facts {s : SBufState} (hwf : WfState s) {i : Nat}
    (h : i < s.views.length) :
    (viewAt s i).store < s.blobs.length ∧ (viewAt s i).len ≤ maxSize ∧
      (viewAt s i).off + (viewAt s i).len ≤ (blobAt s (viewAt s i).store).size := by
  have := hwf.2 (viewAt s i) (viewAt_mem s i h)
  simpa [blobAt] using this

/-- Unpack the well-formedness facts for one valid blob. -/
theorem WfState.blob_facts {s : SBufState} (hwf : WfState s) {b : Nat}
    (h : b < s.blobs.length) :
    (blobAt s b).size ≤ (blobAt s b).capacity ∧ (blobAt s b).capacity ≤ maxSize :=
  hwf.1 (blobAt s b) (blobAt_mem s b h)

end StateHelpers

section CapacityHelpers

theorem le_estimateCapacity (d : Nat) (h : d ≤ maxSize) : d ≤ estimateCapacity d := by
  unfold estimateCapacity
  rcases Nat.le_total d 1 with h1 | h1 <;> simp [Nat.le_min] <;> omega

theorem estimateCapacity_le_maxSize (d : Nat) : estimateCapacity d ≤ maxSize :=
  Nat.min_le_left _ _

end CapacityHelpers

section BlobHelpers

theorem blobWriteTail_size (b : MemBlob) (bytes : List Nat) :
    (blobWriteTail b bytes).size = b.size + bytes.length := rfl

theorem blobWriteTail_capacity (b : MemBlob) (bytes : List Nat) :
    (blobWriteTail b bytes).capacity = b.capacity := rfl

theorem blobWriteTail_data_lt (b : MemBlob) (bytes : List Nat) (k : Nat)
    (h : k < b.size) : (blobWriteTail b bytes).data k = b.data k := by
  simp only [blobWriteTail]
  rw [if_neg (by omega)]

theorem blobWriteTail_data_new (b : MemBlob) (bytes : List Nat) (k : Nat)
    (h : k < bytes.length) :
    (blobWriteTail b bytes).data (b.size + k) = bytes.getD k 0 := by
  simp only [blobWriteTail]
  rw [if_pos (by omega)]
  congr 1
  omega

theorem blobSetByte_size (b : MemBlob) (idx val : Nat) :
    (blobSetByte b idx val).size = b.size := rfl

theorem blobSetByte_capacity (b : MemBlob) (idx val : Nat) :
    (blobSetByte b idx val).capacity = b.capacity := rfl

theorem blobSetByte_data_ne (b : MemBlob) (idx val k : Nat) (h : k ≠ idx) :
    (blobSetByte b idx val).data k = b.data k := by
  simp only [blobSetByte]
  rw [if_neg h]

theorem blobSetByte_data_self (b : MemBlob) (idx val : Nat) :
    (blobSetByte b idx val).data idx = val := by
  simp [blobSetByte]

theorem windowRead_shift (d : Nat → Nat) (off len : Nat) :
    windowRead d off len = windowRead (fun k => d (off + k)) 0 len := by
  simp [windowRead]

theorem windowRead_tail_bytes (b : MemBlob) (bytes : List Nat) :
    windowRead (blobWriteTail b bytes).data b.size bytes.length = bytes := by
  rw [windowRead_shift]
  have : ∀ k, k < bytes.length →
      (blobWriteTail b bytes).data (b.size + (0 + k)) = (fun t => bytes.getD t 0) (0 + k) := by
    intro k hk
    simp only [Nat.zero_add]
    exact blobWriteTail_data_new b bytes k hk
  calc windowRead (fun k => (blobWriteTail b bytes).data (b.size + k)) 0 bytes.length
      = windowRead (fun t => bytes.getD t 0) 0 bytes.length := windowRead_congr 0 _ this
    _ = bytes := windowRead_getD_self bytes

end BlobHelpers

section AppendInPlaceHelpers

theorem appendInPlace_views_length (s : SBufState) (i : Nat) (bytes : List Nat) :
    (appendInPlace s i bytes).views.length = s.views.length := by
  simp [appendInPlace]

theorem appendInPlace_blobs_length (s : SBufState) (i : Nat) (bytes : List Nat) :
    (appendInPlace s i bytes).blobs.length = s.blobs.length := by
  simp [appendInPlace]

theorem appendInPlace_view_self (s : SBufState) (i : Nat) (bytes : List Nat)
    (hi : i < s.views.length) :
    viewAt (appendInPlace s i bytes) i =
      { viewAt s i with len := (viewAt s i).len + bytes.length } := by
  unfold appendInPlace
  exact viewAt_updView_self _ i _ (by simpa using hi)

theorem appendInPlace_view_ne (s : SBufState) (i j : Nat) (bytes : List Nat)
    (hij : i ≠ j) : viewAt (appendInPlace s i bytes) j = viewAt s j := by
  unfold appendInPlace
  rw [viewAt_updView_ne _ _ _ _ hij]
  rfl

theorem appendInPlace_blob_self (s : SBufState) (i : Nat) (bytes : List Nat)
    (hb : (viewAt s i).store < s.blobs.length) :
    blobAt (appendInPlace s i bytes) (viewAt s i).store =
      blobWriteTail (blobAt s (viewAt s i).store) bytes := by
  unfold appendInPlace
  rw [blobAt_updView]
  exact blobAt_updBlob_self _ _ _ hb

theorem appendInPlace_blob_ne (s : SBufState) (i : Nat) (bytes : List Nat)
    (b : Nat) (hb : (viewAt s i).store ≠ b) :
    blobAt (appendInPlace s i bytes) b = blobAt s b := by
  unfold appendInPlace
  rw [blobAt_updView]
  exact blobAt_updBlob_ne _ _ _ _ hb

/-- In-place append at the frontier extends the view's content by exactly the
new bytes. -/
theorem appendInPlace_readView_self (s : SBufState) (i : Nat) (bytes : List Nat)
    (hi : i < s.views.length)
    (hb : (viewAt s i).store < s.blobs.length)
    (hfrontier : (viewAt s i).off + (viewAt s i).len = (blobAt s (viewAt s i).store).size) :
    readView (appendInPlace s i bytes) i = readView s i ++ bytes := by
  unfold readView
  rw [appendInPlace_view_self s i bytes hi]
  simp only
  rw [appendInPlace_blob_self s i bytes hb]
  rw [windowRead_add]
  congr 1
  · apply windowRead_congr
    intro k hk
    exact blobWriteTail_data_lt _ _ _ (by omega)
  · rw [hfrontier]
    exact windowRead_tail_bytes _ _

/-- In-place append only writes at or past the frontier, so every other
well-formed view reads the same bytes afterwards. -/
theorem appendInPlace_readView_ne (s : SBufState) (i j : Nat) (bytes : List Nat)
    (hwf : WfState s) (hij : i ≠ j) (hj : j < s.views.length) :
    readView (appendInPlace s i bytes) j = readView s j := by
  apply readView_congr_state
  · exact appendInPlace_view_ne s i j bytes hij
  · intro k hk
    rw [appendInPlace_view_ne s i j bytes hij]
    by_cases hsame : (viewAt s i).store = (viewAt s j).store
    · rw [← hsame, appendInPlace_blob_self s i bytes
        (hsame ▸ (hwf.view_facts hj).1)]
      have hwin := (hwf.view_facts hj).2.2
      rw [← hsame] at hwin
      exact blobWriteTail_data_lt _ _ _ (by omega)
    · rw [appendInPlace_blob_ne s i bytes _ hsame]

end AppendInPlaceHelpers

section CowHelpers

/-- The fast-path condition of `cowOp`, spelled out. -/
def CowFast (s : SBufState) (i : Nat) (minCapacity : Nat) : Prop :=
  refcount s (viewAt s i).store = 1 ∧ (viewAt s i).off = 0 ∧
    (viewAt s i).len = (blobAt s (viewAt s i).store).size ∧
    minCapacity ≤ (blobAt s (viewAt s i).store).capacity

instance (s : SBufState) (i m : Nat) : Decidable (CowFast s i m) := by
  unfold CowFast; infer_instance

/-- The blob the slow path of `cowOp` allocates. -/
def cowBlob (s : SBufState) (i : Nat) (minCapacity : Nat) : MemBlob :=
  { capacity := estimateCapacity (max (viewAt s i).len minCapacity)
    size := (viewAt s i).len
    data := fun k =>
      if k < (viewAt s i).len then
        (blobAt s (viewAt s i).store).data ((viewAt s i).off + k)
      else 0 }

theorem cowOp_eq (s : SBufState) (i m : Nat) :
    cowOp s i m =
      if CowFast s i m then s
      else updView (pushBlob s (cowBlob s i m)) i
        { store := s.blobs.length, off := 0, len := (viewAt s i).len } := by
  unfold cowOp CowFast cowBlob
  rfl

theorem cowOp_fast (s : SBufState) (i m : Nat) (h : CowFast s i m) :
    cowOp s i m = s := by
  rw [cowOp_eq, if_pos h]

theorem cowOp_views_length (s : SBufState) (i m : Nat) :
    (cowOp s i m).views.length = s.views.length := by
  rw [cowOp_eq]
  split <;> simp

theorem cowOp_view_ne (s : SBufState) (i j m : Nat) (hij : i ≠ j) :
    viewAt (cowOp s i m) j = viewAt s j := by
  rw [cowOp_eq]
  split
  · rfl
  · rw [viewAt_updView_ne _ _ _ _ hij, viewAt_pushBlob]

theorem cowOp_blob_lt (s : SBufState) (i m b : Nat) (hb : b < s.blobs.length) :
    blobAt (cowOp s i m) b = blobAt s b := by
  rw [cowOp_eq]
  split
  · rfl
  · rw [blobAt_updView]
    exact blobAt_pushBlob_lt _ _ _ hb

theorem cowOp_readView_ne (s : SBufState) (i j m : Nat) (hwf : WfState s)
    (hij : i ≠ j) (hj : j < s.views.length) :
    readView (cowOp s i m) j = readView s j := by
  apply readView_congr_state
  · exact cowOp_view_ne s i j m hij
  · intro k _
    rw [cowOp_view_ne s i j m hij, cowOp_blob_lt s i m _ (hwf.view_facts hj).1]

theorem cowOp_slow_view (s : SBufState) (i m : Nat) (hi : i < s.views.length)
    (h : ¬ CowFast s i m) :
    viewAt (cowOp s i m) i =
      { store := s.blobs.length, off := 0, len := (viewAt s i).len } := by
  rw [cowOp_eq, if_neg h]
  exact viewAt_updView_self _ _ _ (by simpa using hi)

theorem cowOp_slow_blob (s : SBufState) (i m : Nat) (h : ¬ CowFast s i m) :
    blobAt (cowOp s i m) s.blobs.length = cowBlob s i m := by
  rw [cowOp_eq, if_neg h, blobAt_updView]
  exact blobAt_pushBlob_len _ _

theorem cowOp_slow_blobs_length (s : SBufState) (i m : Nat) (h : ¬ CowFast s i m) :
    (cowOp s i m).blobs.length = s.blobs.length + 1 := by
  rw [cowOp_eq, if_neg h]
  simp

theorem viewAt_len_le_maxSize (s : SBufState) (hwf : WfState s) (i : Nat) :
    (viewAt s i).len ≤ maxSize := by
  by_cases hi : i < s.views.length
  · exact (hwf.view_facts hi).2.1
  · unfold viewAt
    rw [List.getD_eq_default _ _ (by omega)]
    exact Nat.zero_le _

/-- After a slow cow the new store is uniquely owned. -/
theorem cowOp_slow_refcount (s : SBufState) (i m : Nat) (hwf : WfState s)
    (hi : i < s.views.length) (h : ¬ CowFast s i m) :
    refcount (cowOp s i m) s.blobs.length = 1 := by
  rw [cowOp_eq, if_neg h]
  unfold refcount
  simp only [views_updView, views_pushBlob]
  apply countP_set_eq_one _ _ _ _ hi (by simp)
  intro w hw
  have := (hwf.2 w hw).1
  simp only [beq_iff_eq]
  omega

/-- cow preserves the bytes the view exposes (no observable change). -/
theorem cowOp_readView_self (s : SBufState) (i m : Nat) (hwf : WfState s)
    (hi : i < s.views.length) :
    readView (cowOp s i m) i = readView s i := by
  by_cases h : CowFast s i m
  · rw [cowOp_fast s i m h]
  · unfold readView
    rw [cowOp_slow_view s i m hi h, cowOp_slow_blob s i m h]
    simp only
    rw [windowRead_shift (blobAt s (viewAt s i).store).data (viewAt s i).off]
    apply windowRead_congr
    intro k hk
    simp only [cowBlob, Nat.zero_add]
    rw [if_pos hk]

theorem cowOp_view_len (s : SBufState) (i m : Nat) (hi : i < s.views.length) :
    (viewAt (cowOp s i m) i).len = (viewAt s i).len := by
  by_cases h : CowFast s i m
  · rw [cowOp_fast s i m h]
  · rw [cowOp_slow_view s i m hi h]

theorem cowOp_wf (s : SBufState) (i m : Nat) (hwf : WfState s)
    (hm : m ≤ maxSize) : WfState (cowOp s i m) := by
  by_cases h : CowFast s i m
  · rw [cowOp_fast s i m h]; exact hwf
  · rw [cowOp_eq, if_neg h]
    constructor
    · intro mb hmb
      simp only [blobs_updView, blobs_pushBlob] at hmb
      rcases List.mem_append.1 hmb with hmb | hmb
      · exact hwf.1 mb hmb
      · rcases List.mem_singleton.1 hmb with rfl
        refine ⟨?_, estimateCapacity_le_maxSize _⟩
        simp only [cowBlob]
        calc (viewAt s i).len ≤ max (viewAt s i).len m := Nat.le_max_left _ _
          _ ≤ estimateCapacity (max (viewAt s i).len m) :=
              le_estimateCapacity _
                (Nat.max_le.2 ⟨viewAt_len_le_maxSize s hwf i, hm⟩)
    · intro v hv
      simp only [views_updView, views_pushBlob] at hv
      rcases List.mem_or_eq_of_mem_set hv with hv | rfl
      · have := hwf.2 v hv
        refine ⟨by simp; omega, this.2.1, ?_⟩
        have hb : v.store < s.blobs.length := this.1
        show v.off + v.len ≤ (blobAt (updView (pushBlob s (cowBlob s i m)) i _) v.store).size
        rw [blobAt_updView, blobAt_pushBlob_lt _ _ _ hb]
        exact this.2.2
      · refine ⟨by simp, ?_, ?_⟩
        · exact viewAt_len_le_maxSize s hwf i
        · show 0 + (viewAt s i).len ≤
            (blobAt (updView (pushBlob s (cowBlob s i m)) i _) s.blobs.length).size
          rw [blobAt_updView, blobAt_pushBlob_len]
          simp [cowBlob]

end CowHelpers

section AppendHelpers

/-- The in-place condition of `appendEx`: the append-ownership rule plus
enough spare tail capacity. -/
def AppendFit (s : SBufState) (i n : Nat) : Prop :=
  refcount s (viewAt s i).store = 1 ∧
    (viewAt s i).off + (viewAt s i).len = (blobAt s (viewAt s i).store).size ∧
    n ≤ (blobAt s (viewAt s i).store).capacity - (blobAt s (viewAt s i).store).size

instance (s : SBufState) (i n : Nat) : Decidable (AppendFit s i n) := by
  unfold AppendFit; infer_instance

theorem appendEx_eq (s : SBufState) (i : Nat) (bytes : List Nat) :
    appendEx s i bytes =
      if bytes.length = 0 then .ok s
      else if maxSize < (viewAt s i).len + bytes.length then .error .SBufTooBigException
      else if AppendFit s i bytes.length then .ok (appendInPlace s i bytes)
      else .ok (appendInPlace (cowOp s i ((viewAt s i).len + bytes.length)) i bytes) := by
  unfold appendEx AppendFit
  rfl

/-- Well-formedness is preserved by a legitimate in-place append. -/
theorem appendInPlace_wf (s : SBufState) (i : Nat) (bytes : List Nat)
    (hwf : WfState s) (hi : i < s.views.length)
    (hfrontier : (viewAt s i).off + (viewAt s i).len = (blobAt s (viewAt s i).store).size)
    (hcap : (blobAt s (viewAt s i).store).size + bytes.length ≤
      (blobAt s (viewAt s i).store).capacity)
    (hlen : (viewAt s i).len + bytes.length ≤ maxSize) :
    WfState (appendInPlace s i bytes) := by
  have hb : (viewAt s i).store < s.blobs.length := (hwf.view_facts hi).1
  constructor
  · intro mb hmb
    simp only [appendInPlace, blobs_updView, blobs_updBlob] at hmb
    rcases List.mem_or_eq_of_mem_set hmb with hmb | rfl
    · exact hwf.1 mb hmb
    · rw [blobWriteTail_size, blobWriteTail_capacity]
      exact ⟨hcap, (hwf.blob_facts hb).2⟩
  · intro v hv
    simp only [appendInPlace, views_updView, views_updBlob] at hv
    rcases List.mem_or_eq_of_mem_set hv with hv | rfl
    · have hold := hwf.2 v hv
      refine ⟨by simpa [appendInPlace] using hold.1, hold.2.1, ?_⟩
      show v.off + v.len ≤ (blobAt (appendInPlace s i bytes) v.store).size
      by_cases hsame : (viewAt s i).store = v.store
      · rw [← hsame, appendInPlace_blob_self s i bytes hb, blobWriteTail_size]
        have := hold.2.2
        rw [← hsame] at this
        simp only [blobAt] at this ⊢
        omega
      · rw [appendInPlace_blob_ne s i bytes _ hsame]
        exact hold.2.2
    · refine ⟨by simpa [appendInPlace] using hb, hlen, ?_⟩
      show (viewAt s i).off + ((viewAt s i).len + bytes.length) ≤
        (blobAt (appendInPlace s i bytes) (viewAt s i).store).size
      rw [appendInPlace_blob_self s i bytes hb, blobWriteTail_size]
      omega

/-- After the cow performed inside `appendEx`, the view sits at the append
frontier of its (now uniquely owned, sufficiently large) store. -/
theorem cowOp_for_append (s : SBufState) (i : Nat) (n : Nat) (hwf : WfState s)
    (hi : i < s.views.length) (hn : (viewAt s i).len + n ≤ maxSize) :
    (viewAt (cowOp s i ((viewAt s i).len + n)) i).off +
        (viewAt (cowOp s i ((viewAt s i).len + n)) i).len =
      (blobAt (cowOp s i ((viewAt s i).len + n))
        (viewAt (cowOp s i ((viewAt s i).len + n)) i).store).size ∧
    (blobAt (cowOp s i ((viewAt s i).len + n))
        (viewAt (cowOp s i ((viewAt s i).len + n)) i).store).size + n ≤
      (blobAt (cowOp s i ((viewAt s i).len + n))
        (viewAt (cowOp s i ((viewAt s i).len + n)) i).store).capacity := by
  set m := (viewAt s i).len + n with hm
  by_cases h : CowFast s i m
  · rw [cowOp_fast s i m h]
    rcases h with ⟨_, hoff, hlen, hcap⟩
    constructor
    · rw [hoff, hlen]; simp
    · rw [← hlen]; omega
  · have hv := cowOp_slow_view s i m hi h
    rw [hv]
    simp only
    rw [cowOp_slow_blob s i m h]
    simp only [cowBlob]
    constructor
    · simp
    · have : max (viewAt s i).len m = m := Nat.max_eq_right (by omega)
      rw [this]
      have := le_estimateCapacity m (by omega)
      omega

/-- Every successful append extends the receiver's content by exactly the
appended bytes. -/
theorem appendEx_ok_readView (s : SBufState) (i : Nat) (bytes : List Nat)
    (s' : SBufState) (hwf : WfState s) (hi : i < s.views.length)
    (hok : appendEx s i bytes = .ok s') :
    readView s' i = readView s i ++ bytes := by
  rw [appendEx_eq] at hok
  split at hok
  · rename_i h0
    rcases Except.ok.inj hok with rfl
    rw [List.length_eq_zero.1 h0]
    simp
  · split at hok
    · exact absurd hok (by simp)
    · split at hok
      · rename_i hfit
        rcases Except.ok.inj hok with rfl
        exact appendInPlace_readView_self s i bytes hi (hwf.view_facts hi).1 hfit.2.1
      · rename_i hn hfit
        rcases Except.ok.inj hok with rfl
        have hmax : (viewAt s i).len + bytes.length ≤ maxSize := by omega
        have hfr := cowOp_for_append s i bytes.length hwf hi hmax
        have hwf1 := cowOp_wf s i ((viewAt s i).len + bytes.length) hwf hmax
        have hi1 : i < (cowOp s i ((viewAt s i).len + bytes.length)).views.length := by
          rw [cowOp_views_length]; exact hi
        have hb1 := (hwf1.view_facts hi1).1
        rw [appendInPlace_readView_self _ i bytes hi1 hb1 hfr.1]
        rw [cowOp_readView_self s i _ hwf hi]

/-- Every successful append preserves well-formedness. -/
theorem appendEx_ok_wf (s : SBufState) (i : Nat) (bytes : List Nat)
    (s' : SBufState) (hwf : WfState s) (hi : i < s.views.length)
    (hok : appendEx s i bytes = .ok s') : WfState s' := by
  rw [appendEx_eq] at hok
  split at hok
  · rcases Except.ok.inj hok with rfl; exact hwf
  · split at hok
    · exact absurd hok (by simp)
    · rename_i hn
      split at hok
      · rename_i hfit
        rcases Except.ok.inj hok with rfl
        have hb := (hwf.view_facts hi).1
        have hbs := hwf.blob_facts hb
        exact appendInPlace_wf s i bytes hwf hi hfit.2.1
          (by have := hfit.2.2; omega) (by omega)
      · rcases Except.ok.inj hok with rfl
        have hmax : (viewAt s i).len + bytes.length ≤ maxSize := by omega
        have hfr := cowOp_for_append s i bytes.length hwf hi hmax
        have hwf1 := cowOp_wf s i ((viewAt s i).len + bytes.length) hwf hmax
        have hi1 : i < (cowOp s i ((viewAt s i).len + bytes.length)).views.length := by
          rw [cowOp_views_length]; exact hi
        exact appendInPlace_wf _ i bytes hwf1 hi1 hfr.1 hfr.2
          (by rw [cowOp_view_len s i _ hi]; omega)

/-- A successful append on view `i` does not change what any other
well-formed view reads. -/
theorem appendEx_ok_frame (s : SBufState) (i j : Nat) (bytes : List Nat)
    (s' : SBufState) (hwf : WfState s) (hij : i ≠ j) (hj : j < s.views.length)
    (hok : appendEx s i bytes = .ok s') :
    readView s' j = readView s j ∧ viewAt s' j = viewAt s j := by
  rw [appendEx_eq] at hok
  split at hok
  · rcases Except.ok.inj hok with rfl; exact ⟨rfl, rfl⟩
  · split at hok
    · exact absurd hok (by simp)
    · rename_i hn
      split at hok
      · rcases Except.ok.inj hok with rfl
        exact ⟨appendInPlace_readView_ne s i j bytes hwf hij hj,
          appendInPlace_view_ne s i j bytes hij⟩
      · rcases Except.ok.inj hok with rfl
        have hmax : (viewAt s i).len + bytes.length ≤ maxSize := by omega
        have hwf1 := cowOp_wf s i ((viewAt s i).len + bytes.length) hwf hmax
        have hj1 : j < (cowOp s i ((viewAt s i).len + bytes.length)).views.length := by
          rw [cowOp_views_length]; exact hj
        constructor
        · rw [appendInPlace_readView_ne _ i j bytes hwf1 hij hj1]
          exact cowOp_readView_ne s i j _ hwf hij hj
        · rw [appendInPlace_view_ne _ i j bytes hij]
          exact cowOp_view_ne s i j _ hij

theorem appendEx_ok_views_length (s : SBufState) (i : Nat) (bytes : List Nat)
    (s' : SBufState) (hok : appendEx s i bytes = .ok s') :
    s'.views.length = s.views.length := by
  rw [appendEx_eq] at hok
  split at hok
  · rcases Except.ok.inj hok with rfl; rfl
  · split at hok
    · exact absurd hok (by simp)
    · split at hok
      · rcases Except.ok.inj hok with rfl
        exact appendInPlace_views_length s i bytes
      · rcases Except.ok.inj hok with rfl
        rw [appendInPlace_views_length, cowOp_views_length]

end AppendHelpers

section SetAtHelpers

theorem setAtEx_eq (s : SBufState) (i : Nat) (p : Int) (c : Nat) :
    setAtEx s i p c =
      if p < 0 ∨ ((viewAt s i).len : Int) ≤ p then .error .OutOfBoundsException
      else .ok (updBlob (cowOp s i (viewAt s i).len)
        (viewAt (cowOp s i (viewAt s i).len) i).store
        (blobSetByte (blobAt (cowOp s i (viewAt s i).len)
            (viewAt (cowOp s i (viewAt s i).len) i).store)
          ((viewAt (cowOp s i (viewAt s i).len) i).off + p.toNat) c)) := rfl

/-- Two distinct live views of the same store force a refcount of at least
two. -/
theorem refcount_two_le (s : SBufState) (i j : Nat) (hi : i < s.views.length)
    (hj : j < s.views.length) (hij : i ≠ j)
    (hsame : (viewAt s j).store = (viewAt s i).store) :
    2 ≤ refcount s (viewAt s i).store := by
  unfold refcount
  have hgi : viewAt s i = s.views[i] := getD_eq_getElem _ _ _ hi
  have hgj : viewAt s j = s.views[j] := getD_eq_getElem _ _ _ hj
  have hpi : (fun v => v.store == (viewAt s i).store) s.views[i] = true := by
    rw [← hgi]; simp
  have hpj : (fun v => v.store == (viewAt s i).store) s.views[j] = true := by
    rw [← hgj]; simp [hsame]
  rcases Nat.lt_or_ge i j with h | h
  · exact two_le_countP _ s.views i j h hj hi hpi hpj
  · have h' : j < i := by omega
    exact two_le_countP _ s.views j i h' hi hj hpj hpi

theorem updBlob_wf (s : SBufState) (b : Nat) (m : MemBlob) (hwf : WfState s)
    (hsize : m.size = (blobAt s b).size)
    (hcap : m.capacity = (blobAt s b).capacity) : WfState (updBlob s b m) := by
  constructor
  · intro mb hmb
    simp only [blobs_updBlob] at hmb
    rcases List.mem_or_eq_of_mem_set hmb with hmb | rfl
    · exact hwf.1 mb hmb
    · rw [hsize, hcap]
      by_cases hb : b < s.blobs.length
      · exact hwf.blob_facts hb
      · have : blobAt s b = ⟨0, 0, fun _ => 0⟩ := by
          unfold blobAt
          rw [List.getD_eq_default _ _ (by omega)]
        rw [this]
        exact ⟨Nat.le_refl _, Nat.zero_le _⟩
  · intro v hv
    simp only [views_updBlob] at hv
    have hold := hwf.2 v hv
    refine ⟨by simpa using hold.1, hold.2.1, ?_⟩
    show v.off + v.len ≤ (blobAt (updBlob s b m) v.store).size
    by_cases heq : v.store = b
    · subst heq
      rw [blobAt_updBlob_self _ _ _ hold.1, hsize]
      exact hold.2.2
    · rw [blobAt_updBlob_ne _ _ _ _ (fun h => heq h.symm)]
      exact hold.2.2

theorem setAtEx_ok_wf (s : SBufState) (i : Nat) (p : Int) (c : Nat)
    (s' : SBufState) (hwf : WfState s) (hok : setAtEx s i p c = .ok s') :
    WfState s' := by
  rw [setAtEx_eq] at hok
  split at hok
  · exact absurd hok (by simp)
  · rcases Except.ok.inj hok with rfl
    exact updBlob_wf _ _ _
      (cowOp_wf s i _ hwf (viewAt_len_le_maxSize s hwf i))
      (blobSetByte_size _ _ _) (blobSetByte_capacity _ _ _)

theorem setAtEx_ok_views_length (s : SBufState) (i : Nat) (p : Int) (c : Nat)
    (s' : SBufState) (hok : setAtEx s i p c = .ok s') :
    s'.views.length = s.views.length := by
  rw [setAtEx_eq] at hok
  split at hok
  · exact absurd hok (by simp)
  · rcases Except.ok.inj hok with rfl
    simp [cowOp_views_length]

theorem setAtEx_ok_len (s : SBufState) (i : Nat) (p : Int) (c : Nat)
    (s' : SBufState) (hi : i < s.views.length) (hok : setAtEx s i p c = .ok s') :
    (viewAt s' i).len = (viewAt s i).len := by
  rw [setAtEx_eq] at hok
  split at hok
  · exact absurd hok (by simp)
  · rcases Except.ok.inj hok with rfl
    show (viewAt (cowOp s i (viewAt s i).len) i).len = (viewAt s i).len
    exact cowOp_view_len s i _ hi

/-- A successful `setAt` on view `i` does not change what any other
well-formed view reads: the write happens after `cow(len)`, so either the
store was uniquely owned (and no other view shares it) or a fresh store was
allocated. -/
theorem setAtEx_ok_frame (s : SBufState) (i j : Nat) (p : Int) (c : Nat)
    (s' : SBufState) (hwf : WfState s) (hi : i < s.views.length)
    (hj : j < s.views.length) (hij : i ≠ j) (hok : setAtEx s i p c = .ok s') :
    readView s' j = readView s j ∧ viewAt s' j = viewAt s j := by
  rw [setAtEx_eq] at hok
  split at hok
  · exact absurd hok (by simp)
  · rcases Except.ok.inj hok with rfl
    have hview : ∀ t : Nat,
        viewAt (updBlob (cowOp s i (viewAt s i).len)
          (viewAt (cowOp s i (viewAt s i).len) i).store
          (blobSetByte (blobAt (cowOp s i (viewAt s i).len)
              (viewAt (cowOp s i (viewAt s i).len) i).store)
            ((viewAt (cowOp s i (viewAt s i).len) i).off + p.toNat) c)) t =
        viewAt (cowOp s i (viewAt s i).len) t := fun t => rfl
    constructor
    · apply readView_congr_state
      · rw [hview j, cowOp_view_ne s i j _ hij]
      · intro k hk
        rw [hview j, cowOp_view_ne s i j _ hij]
        by_cases hfast : CowFast s i (viewAt s i).len
        · rw [cowOp_fast s i _ hfast] at *
          by_cases hsame : (viewAt s j).store = (viewAt s i).store
          · exfalso
            have h2 := refcount_two_le s i j hi hj hij hsame
            have h1 := hfast.1
            omega
          · rw [blobAt_updBlob_ne _ _ _ _ (fun h => hsame (h.symm))]
        · have hst : (viewAt (cowOp s i (viewAt s i).len) i).store = s.blobs.length := by
            rw [cowOp_slow_view s i _ hi hfast]
          have hjst : (viewAt s j).store < s.blobs.length := (hwf.view_facts hj).1
          rw [hst, blobAt_updBlob_ne _ _ _ _ (by omega)]
          rw [cowOp_blob_lt s i _ _ hjst]
    · rw [hview j, cowOp_view_ne s i j _ hij]

end SetAtHelpers

section ClearPrintfHelpers

theorem clearOp_views_length (s : SBufState) (i : Nat) :
    (clearOp s i).views.length = s.views.length := by
  simp [clearOp]

theorem clearOp_blobs (s : SBufState) (i : Nat) : (clearOp s i).blobs = s.blobs := rfl

theorem clearOp_view_ne (s : SBufState) (i j : Nat) (hij : i ≠ j) :
    viewAt (clearOp s i) j = viewAt s j :=
  viewAt_updView_ne s i j _ hij

theorem clearOp_readView_ne (s : SBufState) (i j : Nat) (hij : i ≠ j) :
    readView (clearOp s i) j = readView s j := by
  apply readView_congr_state
  · exact clearOp_view_ne s i j hij
  · intro k _
    rw [clearOp_view_ne s i j hij]
    rfl

theorem clearOp_wf (s : SBufState) (i : Nat) (hwf : WfState s)
    (hi : i < s.views.length) : WfState (clearOp s i) := by
  constructor
  · intro mb hmb
    exact hwf.1 mb (by simpa [clearOp] using hmb)
  · intro v hv
    simp only [clearOp, views_updView] at hv
    rcases List.mem_or_eq_of_mem_set hv with hv | rfl
    · have hold := hwf.2 v hv
      exact ⟨by simpa [clearOp] using hold.1, hold.2.1, hold.2.2⟩
    · exact ⟨by simpa [clearOp] using (hwf.view_facts hi).1, by simp [maxSize],
        Nat.zero_le _⟩

theorem printfOp_wf (s : SBufState) (i : Nat) (bytes : List Nat)
    (hwf : WfState s) (hi : i < s.views.length) : WfState (printfOp s i bytes) := by
  have hwf1 := clearOp_wf s i hwf hi
  have hi1 : i < (clearOp s i).views.length := by rw [clearOp_views_length]; exact hi
  simp only [printfOp]
  cases hx : appendEx (clearOp s i) i bytes with
  | ok s2 => exact appendEx_ok_wf _ i bytes s2 hwf1 hi1 hx
  | error e => exact hwf1

theorem printfOp_views_length (s : SBufState) (i : Nat) (bytes : List Nat) :
    (printfOp s i bytes).views.length = s.views.length := by
  simp only [printfOp]
  cases hx : appendEx (clearOp s i) i bytes with
  | ok s2 => rw [appendEx_ok_views_length _ i bytes s2 hx, clearOp_views_length]
  | error e => exact clearOp_views_length s i

theorem printfOp_frame (s : SBufState) (i j : Nat) (bytes : List Nat)
    (hwf : WfState s) (hi : i < s.views.length) (hj : j < s.views.length)
    (hij : i ≠ j) : readView (printfOp s i bytes) j = readView s j := by
  have hwf1 := clearOp_wf s i hwf hi
  have hj1 : j < (clearOp s i).views.length := by rw [clearOp_views_length]; exact hj
  simp only [printfOp]
  cases hx : appendEx (clearOp s i) i bytes with
  | ok s2 =>
    rw [(appendEx_ok_frame _ i j bytes s2 hwf1 hij hj1 hx).1]
    exact clearOp_readView_ne s i j hij
  | error e => exact clearOp_readView_ne s i j hij

end ClearPrintfHelpers

section ApplyOpHelpers

theorem applyOp_wf (s : SBufState) (i : Nat) (op : SBufOp)
    (hwf : WfState s) (hi : i < s.views.length) : WfState (applyOp s i op) := by
  cases op with
  | app bytes =>
    simp only [applyOp]
    cases hx : appendEx s i bytes with
    | ok s2 => exact appendEx_ok_wf s i bytes s2 hwf hi hx
    | error e => exact hwf
  | sets p c =>
    simp only [applyOp]
    cases hx : setAtEx s i p c with
    | ok s2 => exact setAtEx_ok_wf s i p c s2 hwf hx
    | error e => exact hwf
  | prf bytes => exact printfOp_wf s i bytes hwf hi

theorem applyOp_views_length (s : SBufState) (i : Nat) (op : SBufOp) :
    (applyOp s i op).views.length = s.views.length := by
  cases op with
  | app bytes =>
    simp only [applyOp]
    cases hx : appendEx s i bytes with
    | ok s2 => exact appendEx_ok_views_length s i bytes s2 hx
    | error e => rfl
  | sets p c =>
    simp only [applyOp]
    cases hx : setAtEx s i p c with
    | ok s2 => exact setAtEx_ok_views_length s i p c s2 hx
    | error e => rfl
  | prf bytes => exact printfOp_views_length s i bytes

theorem applyOp_frame (s : SBufState) (i j : Nat) (op : SBufOp)
    (hwf : WfState s) (hi : i < s.views.length) (hj : j < s.views.length)
    (hij : i ≠ j) : readView (applyOp s i op) j = readView s j := by
  cases op with
  | app bytes =>
    simp only [applyOp]
    cases hx : appendEx s i bytes with
    | ok s2 => exact (appendEx_ok_frame s i j bytes s2 hwf hij hj hx).1
    | error e => rfl
  | sets p c =>
    simp only [applyOp]
    cases hx : setAtEx s i p c with
    | ok s2 => exact (setAtEx_ok_frame s i j p c s2 hwf hi hj hij hx).1
    | error e => rfl
  | prf bytes => exact printfOp_frame s i j bytes hwf hi hj hij

theorem applyOps_cons (s : SBufState) (i : Nat) (op : SBufOp) (ops : List SBufOp) :
    applyOps s i (op :: ops) = applyOps (applyOp s i op) i ops := rfl

theorem applyOps_frame (ops : List SBufOp) :
    ∀ (s : SBufState) (i j : Nat), WfState s → i < s.views.length →
      j < s.views.length → i ≠ j → readView (applyOps s i ops) j = readView s j := by
  induction ops with
  | nil => intro s i j _ _ _ _; rfl
  | cons op ops ih =>
    intro s i j hwf hi hj hij
    rw [applyOps_cons]
    rw [ih (applyOp s i op) i j (applyOp_wf s i op hwf hi)
      (by rw [applyOp_views_length]; exact hi)
      (by rw [applyOp_views_length]; exact hj) hij]
    exact applyOp_frame s i j op hwf hi hj hij

end ApplyOpHelpers

section AssignHelpers

theorem assignOp_views_length (s : SBufState) (dst src : Nat) :
    (assignOp s dst src).views.length = s.views.length := by
  simp [assignOp]

theorem assignOp_wf (s : SBufState) (dst src : Nat) (hwf : WfState s)
    (hsrc : src < s.views.length) : WfState (assignOp s dst src) := by
  constructor
  · intro mb hmb
    exact hwf.1 mb (by simpa [assignOp] using hmb)
  · intro v hv
    simp only [assignOp, views_updView] at hv
    rcases List.mem_or_eq_of_mem_set hv with hv | rfl
    · have hold := hwf.2 v hv
      exact ⟨by simpa [assignOp] using hold.1, hold.2.1, hold.2.2⟩
    · have hold := hwf.view_facts hsrc
      exact ⟨by simpa [assignOp] using hold.1, hold.2.1, hold.2.2⟩

theorem assignOp_view_dst (s : SBufState) (dst src : Nat)
    (hdst : dst < s.views.length) : viewAt (assignOp s dst src) dst = viewAt s src :=
  viewAt_updView_self s dst _ hdst

end AssignHelpers

/-- Claim C1: COW isolation.  For every pair of well-formed SBuf views where
`b` (index `j`) was assigned from `a` (index `i`), sharing the store, after
any sequence of mutating operations (`append`, `setAt`, `Printf`) on `a`, the
byte sequence observed through `b` is identical to the one observed
immediately after the assignment `b = a`. -/
theorem C1_cow_isolation (s : SBufState) (i j : Nat) (ops : List SBufOp)
    (hwf : WfState s) (hi : i < s.views.length) (hj : j < s.views.length)
    (hij : i ≠ j) :
    viewAt (assignOp s j i) j = viewAt s i ∧
      readView (applyOps (assignOp s j i) i ops) j = readView (assignOp s j i) j := by
  refine ⟨assignOp_view_dst s j i hj, ?_⟩
  exact applyOps_frame ops (assignOp s j i) i j
    (assignOp_wf s j i hwf hi)
    (by rw [assignOp_views_length]; exact hi)
    (by rw [assignOp_views_length]; exact hj)
    hij

/-- Witness for C1 at a concrete shared-store state: view 1 is assigned from
view 0, then view 0 is mutated by an append, a setAt and a Printf; view 1
still reads its original bytes. -/
theorem C1_cow_isolation_witness :
    viewAt (assignOp ⟨[⟨8, 3, fun k => k + 10⟩], [⟨0, 0, 3⟩, ⟨0, 1, 1⟩]⟩ 1 0) 1 =
        viewAt (⟨[⟨8, 3, fun k => k + 10⟩], [⟨0, 0, 3⟩, ⟨0, 1, 1⟩]⟩ : SBufState) 0 ∧
      readView (applyOps (assignOp ⟨[⟨8, 3, fun k => k + 10⟩], [⟨0, 0, 3⟩, ⟨0, 1, 1⟩]⟩ 1 0) 0
          [SBufOp.app [1, 2], SBufOp.sets 0 99, SBufOp.prf [7]]) 1 =
        readView (assignOp ⟨[⟨8, 3, fun k => k + 10⟩], [⟨0, 0, 3⟩, ⟨0, 1, 1⟩]⟩ 1 0) 1 :=
  C1_cow_isolation ⟨[⟨8, 3, fun k => k + 10⟩], [⟨0, 0, 3⟩, ⟨0, 1, 1⟩]⟩ 0 1 _
    (by decide) (by decide) (by decide) (by decide)

/-- Claim C2: the append algorithm.  `append(bytes, n)` is a no-op when
`n = 0`; when the append-ownership rule holds and the spare capacity
suffices (`AppendFit`), it appends in place, copying the bytes to
`store.data + store.size` and advancing `store.size` and `len` by `n`;
otherwise (absent size overflow) it cows to a fresh uniquely owned store
(`off = 0`) and appends there.  In every successful case the resulting
content is the old content followed by the appended bytes. -/
theorem C2_append_algorithm (s : SBufState) (i : Nat) (bytes : List Nat)
    (hwf : WfState s) (hi : i < s.views.length) :
    (bytes.length = 0 → appendEx s i bytes = .ok s) ∧
    (∀ s', appendEx s i bytes = .ok s' →
      readView s' i = readView s i ++ bytes) ∧
    (bytes.length ≠ 0 → AppendFit s i bytes.length →
      appendEx s i bytes = .ok (appendInPlace s i bytes) ∧
      (viewAt (appendInPlace s i bytes) i).store = (viewAt s i).store ∧
      (viewAt (appendInPlace s i bytes) i).len = (viewAt s i).len + bytes.length ∧
      (blobAt (appendInPlace s i bytes) (viewAt s i).store).size =
        (blobAt s (viewAt s i).store).size + bytes.length ∧
      (∀ k, k < bytes.length →
        (blobAt (appendInPlace s i bytes) (viewAt s i).store).data
          ((blobAt s (viewAt s i).store).size + k) = bytes.getD k 0)) ∧
    (bytes.length ≠ 0 → ¬ AppendFit s i bytes.length →
      (viewAt s i).len + bytes.length ≤ maxSize →
      ∃ s', appendEx s i bytes = .ok s' ∧
        (viewAt s' i).store = s.blobs.length ∧
        (viewAt s' i).off = 0 ∧
        (viewAt s' i).len = (viewAt s i).len + bytes.length ∧
        (blobAt s' (viewAt s' i).store).size = (viewAt s i).len + bytes.length ∧
        refcount s' (viewAt s' i).store = 1) := by
  have hb : (viewAt s i).store < s.blobs.length := (hwf.view_facts hi).1
  have hbw := hwf.blob_facts hb
  have hvw := hwf.view_facts hi
  refine ⟨?_, ?_, ?_, ?_⟩
  · intro h0
    rw [appendEx_eq, if_pos h0]
  · intro s' hok
    exact appendEx_ok_readView s i bytes s' hwf hi hok
  · intro hn hfit
    have hnof : ¬ maxSize < (viewAt s i).len + bytes.length := by
      have h1 := hfit.2.1
      have h2 := hfit.2.2
      omega
    refine ⟨by rw [appendEx_eq, if_neg hn, if_neg hnof, if_pos hfit], ?_, ?_, ?_, ?_⟩
    · rw [appendInPlace_view_self s i bytes hi]
    · rw [appendInPlace_view_self s i bytes hi]
    · rw [appendInPlace_blob_self s i bytes hb, blobWriteTail_size]
    · intro k hk
      rw [appendInPlace_blob_self s i bytes hb]
      exact blobWriteTail_data_new _ _ _ hk
  · intro hn hfit hmax
    have hnof : ¬ maxSize < (viewAt s i).len + bytes.length := by omega
    have hslow : ¬ CowFast s i ((viewAt s i).len + bytes.length) := by
      intro hfast
      apply hfit
      rcases hfast with ⟨h1, h2, h3, h4⟩
      exact ⟨h1, by omega, by omega⟩
    set m := (viewAt s i).len + bytes.length with hm
    have hv1 := cowOp_slow_view s i m hi hslow
    have hb1 := cowOp_slow_blob s i m hslow
    have hlen1 : (cowOp s i m).blobs.length = s.blobs.length + 1 :=
      cowOp_slow_blobs_length s i m hslow
    have hi1 : i < (cowOp s i m).views.length := by
      rw [cowOp_views_length]; exact hi
    refine ⟨appendInPlace (cowOp s i m) i bytes,
      by rw [appendEx_eq, if_neg hn, if_neg hnof, if_neg hfit], ?_, ?_, ?_, ?_, ?_⟩
    · rw [appendInPlace_view_self _ i bytes hi1, hv1]
    · rw [appendInPlace_view_self _ i bytes hi1, hv1]
    · rw [appendInPlace_view_self _ i bytes hi1, hv1, hm]
    · rw [appendInPlace_view_self _ i bytes hi1, hv1]
      show (blobAt (appendInPlace (cowOp s i m) i bytes) s.blobs.length).size = m
      have hst : s.blobs.length = (viewAt (cowOp s i m) i).store := by rw [hv1]
      rw [hst, appendInPlace_blob_self _ i bytes
        (by rw [hv1, hlen1]; exact Nat.lt_succ_self _)]
      rw [blobWriteTail_size, ← hst, hb1]
      simp [cowBlob, hm]
    · rw [appendInPlace_view_self _ i bytes hi1, hv1]
      show refcount (appendInPlace (cowOp s i m) i bytes) s.blobs.length = 1
      have hsv : (cowOp s i m).views =
          s.views.set i { store := s.blobs.length, off := 0, len := (viewAt s i).len } := by
        rw [cowOp_eq, if_neg hslow]
        rfl
      have hviews : (appendInPlace (cowOp s i m) i bytes).views =
          (cowOp s i m).views.set i
            { viewAt (cowOp s i m) i with len := (viewAt (cowOp s i m) i).len + bytes.length } := by
        simp only [appendInPlace, views_updView, views_updBlob]
      unfold refcount
      rw [hviews, hsv, hv1, List.set_set]
      apply countP_set_eq_one _ _ _ _ hi (by simp)
      intro w hw
      have := (hwf.2 w hw).1
      simp only [beq_iff_eq]
      omega

/-- Witness for C2 at a concrete uniquely owned buffer with spare capacity:
appending two bytes yields the old content followed by those bytes. -/
theorem C2_append_algorithm_witness :
    readView (applyOp ⟨[⟨8, 3, fun k => k + 10⟩], [⟨0, 0, 3⟩]⟩ 0 (SBufOp.app [5, 6])) 0 =
      readView (⟨[⟨8, 3, fun k => k + 10⟩], [⟨0, 0, 3⟩]⟩ : SBufState) 0 ++ [5, 6] :=
  (C2_append_algorithm ⟨[⟨8, 3, fun k => k + 10⟩], [⟨0, 0, 3⟩]⟩ 0 [5, 6]
      (by decide) (by decide)).2.1
    (applyOp ⟨[⟨8, 3, fun k => k + 10⟩], [⟨0, 0, 3⟩]⟩ 0 (SBufOp.app [5, 6])) (by rfl)

theorem applyOp_app_of_error (s : SBufState) (i : Nat) (bytes : List Nat)
    (e : SBufError) (h : appendEx s i bytes = .error e) :
    applyOp s i (.app bytes) = s := by
  simp only [applyOp]
  rw [h]

/-- Claim C3: size-overflow atomicity.  Any append that would push `len`
above `maxSize` fails with `SBufTooBigException` and leaves the SBuf
unchanged; and an SBuf of exactly `maxSize` bytes can be built, after which
appending one more byte fails, leaving it unchanged. -/
theorem C3_size_overflow (s : SBufState) (i : Nat) (bytes : List Nat)
    (hwf : WfState s) (hi : i < s.views.length)
    (hover : maxSize < (viewAt s i).len + bytes.length) :
    (appendEx s i bytes = .error .SBufTooBigException ∧
      applyOp s i (.app bytes) = s) ∧
    (∃ s', fromBytes emptyState (List.replicate maxSize 0) = .ok s' ∧
      (viewAt s' 0).len = maxSize ∧
      appendEx s' 0 [0] = .error .SBufTooBigException ∧
      applyOp s' 0 (.app [0]) = s') := by
  have hlen : (List.replicate maxSize (0 : Nat)).length = maxSize :=
    List.length_replicate _ _
  have hn0 : bytes.length ≠ 0 := by
    have := (hwf.view_facts hi).2.1
    omega
  have herr : appendEx s i bytes = .error .SBufTooBigException := by
    rw [appendEx_eq, if_neg hn0, if_pos hover]
  constructor
  · exact ⟨herr, applyOp_app_of_error s i bytes _ herr⟩
  · set BS := List.replicate maxSize (0 : Nat) with hBS
    set mb : MemBlob := ⟨estimateCapacity BS.length, BS.length, fun k => BS.getD k 0⟩ with hmb
    set vv : SBufView := ⟨emptyState.blobs.length, 0, BS.length⟩ with hvv
    set S := pushView (pushBlob emptyState mb) vv with hS
    have hfb : fromBytes emptyState BS = .ok S := by
      unfold fromBytes
      rw [if_neg (by rw [hBS, hlen]; omega)]
    have hv0 : viewAt S 0 = vv := viewAt_pushView_len (pushBlob emptyState mb) vv
    have hvlen : (viewAt S 0).len = maxSize := by
      rw [hv0]
      show BS.length = maxSize
      exact hlen
    have hlt : maxSize < (viewAt S 0).len + ([0] : List Nat).length := by
      rw [hvlen]
      show maxSize < maxSize + 1
      omega
    have herr2 : appendEx S 0 [0] = .error .SBufTooBigException := by
      rw [appendEx_eq, if_neg (by simp), if_pos hlt]
    exact ⟨S, hfb, hvlen, herr2, applyOp_app_of_error S 0 [0] _ herr2⟩

/-- Witness for C3 at a concrete full buffer of `maxSize` bytes: appending
one byte reports the size-overflow error. -/
theorem C3_size_overflow_witness :
    appendEx ⟨[⟨maxSize, maxSize, fun _ => 0⟩], [⟨0, 0, maxSize⟩]⟩ 0 [0] =
      .error .SBufTooBigException :=
  (C3_size_overflow ⟨[⟨maxSize, maxSize, fun _ => 0⟩], [⟨0, 0, maxSize⟩]⟩ 0 [0]
    (by decide) (by decide) (by decide)).1.1

theorem applyOp_sets_of_error (s : SBufState) (i : Nat) (p : Int) (c : Nat)
    (e : SBufError) (h : setAtEx s i p c = .error e) :
    applyOp s i (.sets p c) = s := by
  simp only [applyOp]
  rw [h]

/-- Claim C4: checked access.  `at(p)` fails with `OutOfBoundsException`
exactly when `p < 0 ∨ p ≥ len` and returns `store.data[off + p]` otherwise;
`setAt(p, c)` performs the same bounds check before writing, failure leaves
the SBuf unchanged, and a successful `setAt` does not change `len`. -/
theorem C4_checked_access (s : SBufState) (i : Nat) (p : Int) (c : Nat) :
    (atEx s i p = .error .OutOfBoundsException ↔
      (p < 0 ∨ ((viewAt s i).len : Int) ≤ p)) ∧
    (¬ (p < 0 ∨ ((viewAt s i).len : Int) ≤ p) →
      atEx s i p = .ok ((blobAt s (viewAt s i).store).data ((viewAt s i).off + p.toNat))) ∧
    (setAtEx s i p c = .error .OutOfBoundsException ↔
      (p < 0 ∨ ((viewAt s i).len : Int) ≤ p)) ∧
    (∀ s', i < s.views.length → setAtEx s i p c = .ok s' →
      (viewAt s' i).len = (viewAt s i).len) ∧
    ((p < 0 ∨ ((viewAt s i).len : Int) ≤ p) → applyOp s i (.sets p c) = s) := by
  have hat : atEx s i p =
      if p < 0 ∨ ((viewAt s i).len : Int) ≤ p then .error .OutOfBoundsException
      else .ok ((blobAt s (viewAt s i).store).data ((viewAt s i).off + p.toNat)) := rfl
  refine ⟨?_, ?_, ?_, ?_, ?_⟩
  · rw [hat]
    split
    · rename_i hb
      exact iff_of_true rfl hb
    · rename_i hb
      exact iff_of_false (by simp) hb
  · intro hb
    rw [hat, if_neg hb]
  · rw [setAtEx_eq]
    split
    · rename_i hb
      exact iff_of_true rfl hb
    · rename_i hb
      exact iff_of_false (by simp) hb
  · intro s' hi hok
    exact setAtEx_ok_len s i p c s' hi hok
  · intro hb
    apply applyOp_sets_of_error s i p c .OutOfBoundsException
    rw [setAtEx_eq, if_pos hb]

/-- Witness for C4 at a concrete in-bounds write: `setAt(0, 9)` succeeds and
leaves the length unchanged. -/
theorem C4_checked_access_witness :
    (viewAt (applyOp ⟨[⟨4, 2, fun k => k + 10⟩], [⟨0, 0, 2⟩]⟩ 0 (SBufOp.sets 0 9)) 0).len =
      (viewAt (⟨[⟨4, 2, fun k => k + 10⟩], [⟨0, 0, 2⟩]⟩ : SBufState) 0).len :=
  (C4_checked_access ⟨[⟨4, 2, fun k => k + 10⟩], [⟨0, 0, 2⟩]⟩ 0 0 9).2.2.2.1
    (applyOp ⟨[⟨4, 2, fun k => k + 10⟩], [⟨0, 0, 2⟩]⟩ 0 (SBufOp.sets 0 9))
    (by decide) (by rfl)

/-- Counterexample to claim C5 as stated: at `n = npos` the claimed content
formula `a[pos .. pos + min(n, a.len - pos))` (with the `min` taken over the
signed size type, so `min(npos, 2) = -1`, an empty range) disagrees with
`substr`, for which `n = npos` means "to the end of the buffer"
(src/SBuf.h line 430). -/
theorem C5_substr_counterexample :
    readView (substrOp ⟨[⟨2, 2, fun k => 97 + k⟩], [⟨0, 0, 2⟩]⟩ 0 0 npos) 1 ≠
      substrClaim ⟨[⟨2, 2, fun k => 97 + k⟩], [⟨0, 0, 2⟩]⟩ 0 0 npos := by
  decide

/-- Claim C5 (amended): `substr(pos, n)` clamps `pos` to `[0, a.len]` and `n`
to `[0, a.len - pos]`, returns a new SBuf sharing `a`'s store and leaves `a`
completely unchanged; for `n ≠ npos` its content is exactly the byte range
`a[pos .. pos + min(n, a.len - pos))` of the claim, while `n = npos` selects
the whole remaining range `a[pos .. a.len)`. -/
theorem C5_substr_amended (s : SBufState) (i : Nat) (hi : i < s.views.length)
    (pos n : Int) :
    (substrOp s i pos n).blobs = s.blobs ∧
    viewAt (substrOp s i pos n) i = viewAt s i ∧
    (viewAt (substrOp s i pos n) s.views.length).store = (viewAt s i).store ∧
    (n ≠ npos → readView (substrOp s i pos n) s.views.length = substrClaim s i pos n) ∧
    (n = npos → readView (substrOp s i pos n) s.views.length =
      (readView s i).drop (min (max pos 0).toNat (viewAt s i).len)) := by
  have hnew : viewAt (substrOp s i pos n) s.views.length =
      ⟨(viewAt s i).store,
        (viewAt s i).off + min (max pos 0).toNat (viewAt s i).len,
        if n = npos then (viewAt s i).len - min (max pos 0).toNat (viewAt s i).len
        else min (max n 0).toNat
          ((viewAt s i).len - min (max pos 0).toNat (viewAt s i).len)⟩ :=
    viewAt_pushView_len s _
  have hblob : ∀ b, blobAt (substrOp s i pos n) b = blobAt s b := fun b => rfl
  refine ⟨rfl, viewAt_pushView_lt s _ i hi, by rw [hnew], ?_, ?_⟩
  · intro hn
    unfold substrClaim
    unfold readView
    rw [hnew, hblob]
    simp only
    rw [if_neg hn]
    rw [windowRead_drop, windowRead_take]
    have hp : (min (max pos 0) ((viewAt s i).len : Int)).toNat =
        min (max pos 0).toNat (viewAt s i).len := by omega
    rw [hp]
    congr 1
    omega
  · intro hn
    unfold readView
    rw [hnew, hblob]
    simp only
    rw [if_pos hn, windowRead_drop]

/-- Witness for the amended C5 at a concrete buffer and `n = 1`. -/
theorem C5_substr_amended_witness :
    readView (substrOp ⟨[⟨2, 2, fun k => 97 + k⟩], [⟨0, 0, 2⟩]⟩ 0 1 1) 1 =
      substrClaim ⟨[⟨2, 2, fun k => 97 + k⟩], [⟨0, 0, 2⟩]⟩ 0 1 1 :=
  (C5_substr_amended ⟨[⟨2, 2, fun k => 97 + k⟩], [⟨0, 0, 2⟩]⟩ 0 (by decide) 1 1).2.2.2.1
    (by decide)

/-- Counterexample to claim C6 as stated: at `n = npos` the claimed head size
`min(n, a.len)` (over the signed size type: `min(-1, 3)` — no bytes)
disagrees with `consume`, for which `npos` means "to the end of the SBuf"
(src/SBuf.h lines 296-297), so the whole content is consumed. -/
theorem C6_consume_counterexample :
    readView (consumeOp ⟨[⟨3, 3, fun k => 97 + k⟩], [⟨0, 0, 3⟩]⟩ 0 npos) 1 ≠
      (readView ⟨[⟨3, 3, fun k => 97 + k⟩], [⟨0, 0, 3⟩]⟩ 0).take
        (consumeClaimLen ⟨[⟨3, 3, fun k => 97 + k⟩], [⟨0, 0, 3⟩]⟩ 0 npos) := by
  decide

/-- Claim C6 (amended): for `n ≠ npos`, `consume(n)` returns a new SBuf with
exactly the first `min(n, a.len)` bytes as a shared slice, advances the
receiver's `off` by that amount and decreases its `len` by the same amount,
both sharing the store, and the receiver keeps the old content with its head
removed; `n = npos` consumes the whole content. -/
theorem C6_consume_amended (s : SBufState) (i : Nat) (hi : i < s.views.length)
    (n : Int) :
    (consumeOp s i n).blobs = s.blobs ∧
    (viewAt (consumeOp s i n) s.views.length).store = (viewAt s i).store ∧
    (viewAt (consumeOp s i n) i).store = (viewAt s i).store ∧
    (n ≠ npos →
      readView (consumeOp s i n) s.views.length =
        (readView s i).take (consumeClaimLen s i n) ∧
      (viewAt (consumeOp s i n) i).off = (viewAt s i).off + consumeClaimLen s i n ∧
      (viewAt (consumeOp s i n) i).len = (viewAt s i).len - consumeClaimLen s i n ∧
      readView (consumeOp s i n) i = (readView s i).drop (consumeClaimLen s i n)) ∧
    (n = npos →
      readView (consumeOp s i n) s.views.length = readView s i ∧
      (viewAt (consumeOp s i n) i).len = 0) := by
  have hL : (updView s i
      { store := (viewAt s i).store,
        off := (viewAt s i).off +
          (if n = npos then (viewAt s i).len else min (max n 0).toNat (viewAt s i).len),
        len := (viewAt s i).len -
          (if n = npos then (viewAt s i).len
            else min (max n 0).toNat (viewAt s i).len) }).views.length = s.views.length := by
    simp
  have hhead : viewAt (consumeOp s i n) s.views.length =
      { store := (viewAt s i).store, off := (viewAt s i).off,
        len := if n = npos then (viewAt s i).len
          else min (max n 0).toNat (viewAt s i).len } := by
    rw [← hL]
    exact viewAt_pushView_len _ _
  have hadv : viewAt (consumeOp s i n) i =
      { store := (viewAt s i).store,
        off := (viewAt s i).off +
          (if n = npos then (viewAt s i).len else min (max n 0).toNat (viewAt s i).len),
        len := (viewAt s i).len -
          (if n = npos then (viewAt s i).len
            else min (max n 0).toNat (viewAt s i).len) } := by
    show viewAt (pushView (updView s i _) _) i = _
    rw [viewAt_pushView_lt _ _ i (by simpa using hi)]
    exact viewAt_updView_self s i _ hi
  have hblob : ∀ b, blobAt (consumeOp s i n) b = blobAt s b := fun _ => rfl
  have hccl : ∀ hn : n ≠ npos,
      consumeClaimLen s i n = min (max n 0).toNat (viewAt s i).len := by
    intro hn
    unfold consumeClaimLen
    omega
  refine ⟨rfl, by rw [hhead], by rw [hadv], ?_, ?_⟩
  · intro hn
    refine ⟨?_, ?_, ?_, ?_⟩
    · unfold readView
      rw [hhead, hblob, hccl hn]
      simp only
      rw [if_neg hn, windowRead_take]
      congr 1
      omega
    · rw [hadv, hccl hn]
      simp only
      rw [if_neg hn]
    · rw [hadv, hccl hn]
      simp only
      rw [if_neg hn]
    · unfold readView
      rw [hadv, hblob, hccl hn]
      simp only
      rw [if_neg hn, windowRead_drop]
  · intro hn
    constructor
    · unfold readView
      rw [hhead, hblob]
      simp only
      rw [if_pos hn]
    · rw [hadv]
      simp only
      rw [if_pos hn, Nat.sub_self]

/-- Witness for the amended C6 at a concrete buffer and `n = 2`. -/
theorem C6_consume_amended_witness :
    readView (consumeOp ⟨[⟨3, 3, fun k => 97 + k⟩], [⟨0, 0, 3⟩]⟩ 0 2) 1 =
      (readView ⟨[⟨3, 3, fun k => 97 + k⟩], [⟨0, 0, 3⟩]⟩ 0).take
        (consumeClaimLen ⟨[⟨3, 3, fun k => 97 + k⟩], [⟨0, 0, 3⟩]⟩ 0 2) :=
  ((C6_consume_amended ⟨[⟨3, 3, fun k => 97 + k⟩], [⟨0, 0, 3⟩]⟩ 0 (by decide) 2).2.2.2.1
    (by decide)).1

section CompareHelpers

theorem effLen_le (len : Nat) (n : Int) : effLen len n ≤ len := by
  unfold effLen
  split
  · exact Nat.le_refl _
  · exact Nat.min_le_left _ _

theorem cmpBytes_self (cs : SBufCaseSensitive) (l : List Nat) :
    cmpBytes cs l l = 0 := by
  induction l with
  | nil => rfl
  | cons a as ih => simp [cmpBytes, ih]

theorem cmpBytes_zero_iff (xs ys : List Nat) :
    cmpBytes .caseSensitive xs ys = 0 ↔ xs = ys := by
  induction xs generalizing ys with
  | nil => cases ys <;> simp [cmpBytes]
  | cons a as ih =>
    cases ys with
    | nil => simp [cmpBytes]
    | cons b bs =>
      simp only [cmpBytes, normByte]
      rcases Nat.lt_trichotomy a b with h | h | h
      · rw [if_pos h]
        constructor
        · intro hc; exact absurd hc (by norm_num)
        · intro hc
          injection hc with h1 _
          omega
      · subst h
        rw [if_neg (by omega), if_neg (by omega)]
        rw [ih bs]
        constructor
        · intro hc; rw [hc]
        · intro hc; injection hc
      · rw [if_neg (by omega), if_pos h]
        constructor
        · intro hc; exact absurd hc (by norm_num)
        · intro hc
          injection hc with h1 _
          omega

theorem readView_take_effLen (s : SBufState) (i : Nat) (n : Int) :
    (readView s i).take (effLen (viewAt s i).len n) =
      windowRead (blobAt s (viewAt s i).store).data (viewAt s i).off
        (effLen (viewAt s i).len n) := by
  unfold readView
  rw [windowRead_take, Nat.min_eq_left (effLen_le _ _)]

end CompareHelpers

/-- Counterexample to claim C7 as stated: with `a = "ab"`, `b = "abc"` in
distinct stores and `n = 1`, `compare` truncates both views to one byte
(str(case)cmp-style, src/SBuf.h lines 265-273) and reports a tie (0), while
the claim's formula scans `min(len_a, len_b, n) = 1` equal bytes and then
tie-breaks by `len_a - len_b`, yielding -1.  (The claim's own `startsWith`
clause requires the truncating behaviour, so its general tie-break clause
cannot also hold.) -/
theorem C7_compare_counterexample :
    compareOp ⟨[⟨2, 2, fun k => 97 + k⟩, ⟨3, 3, fun k => 97 + k⟩],
        [⟨0, 0, 2⟩, ⟨1, 0, 3⟩]⟩ 0 1 .caseSensitive 1 ≠
      compareClaim ⟨[⟨2, 2, fun k => 97 + k⟩, ⟨3, 3, fun k => 97 + k⟩],
        [⟨0, 0, 2⟩, ⟨1, 0, 3⟩]⟩ 0 1 .caseSensitive 1 := by
  decide

/-- Claim C7 (amended): `compare` returns 0 without scanning when both views
have the same store, offset and length; in general it equals the
lexicographic comparison of the two views truncated to `n` bytes
(`effLen`), which scans at most `min(len_a, len_b, n)` bytes and, on a tie,
returns the sign of `min(len_a, n) - min(len_b, n)` (the truncated lengths);
`startsWith(b, cs)` is true iff `len_a ≥ len_b` and
`compare(b, cs, b.len) = 0`; and `a == b` iff the case-sensitive full
compare is 0, which holds iff the contents are equal. -/
theorem C7_compare_amended (s : SBufState) (i j : Nat) (cs : SBufCaseSensitive)
    (n : Int) :
    ((viewAt s i).store = (viewAt s j).store → (viewAt s i).off = (viewAt s j).off →
      (viewAt s i).len = (viewAt s j).len → compareOp s i j cs n = 0) ∧
    compareOp s i j cs n =
      cmpBytes cs ((readView s i).take (effLen (viewAt s i).len n))
        ((readView s j).take (effLen (viewAt s j).len n)) ∧
    (startsWithOp s i j cs = true ↔
      ((viewAt s j).len ≤ (viewAt s i).len ∧
        compareOp s i j cs ((viewAt s j).len : Int) = 0)) ∧
    (eqOp s i j = true ↔ compareOp s i j .caseSensitive npos = 0) ∧
    (eqOp s i j = true ↔ readView s i = readView s j) := by
  have hcore : ∀ (cs' : SBufCaseSensitive) (m : Int), compareOp s i j cs' m =
      cmpBytes cs' ((readView s i).take (effLen (viewAt s i).len m))
        ((readView s j).take (effLen (viewAt s j).len m)) := by
    intro cs' m
    by_cases hfast : (viewAt s i).store = (viewAt s j).store ∧
        (viewAt s i).off = (viewAt s j).off ∧
        effLen (viewAt s i).len m = effLen (viewAt s j).len m
    · have : compareOp s i j cs' m = 0 := by
        simp only [compareOp]
        rw [if_pos hfast]
      rw [this, readView_take_effLen, readView_take_effLen,
        hfast.1, hfast.2.1, hfast.2.2, cmpBytes_self]
    · simp only [compareOp]
      rw [if_neg hfast]
  refine ⟨?_, hcore cs n, ?_, ?_, ?_⟩
  · intro h1 h2 h3
    simp only [compareOp]
    rw [if_pos ⟨h1, h2, by rw [h3]⟩]
  · simp [startsWithOp]
  · simp [eqOp]
  · rw [show (eqOp s i j = true ↔ compareOp s i j .caseSensitive npos = 0) by simp [eqOp]]
    rw [hcore .caseSensitive npos]
    have hfull : ∀ t, (readView s t).take (effLen (viewAt s t).len npos) = readView s t := by
      intro t
      have : effLen (viewAt s t).len npos = (viewAt s t).len := by
        unfold effLen
        rw [if_pos rfl]
      rw [this]
      have hl : (readView s t).length = (viewAt s t).len := by
        unfold readView
        exact windowRead_length _ _ _
      rw [← hl, List.take_length]
    rw [hfull i, hfull j]
    exact cmpBytes_zero_iff _ _

/-- Witness for the amended C7: two views with identical store, offset and
length compare equal without a scan. -/
theorem C7_compare_amended_witness :
    compareOp ⟨[⟨2, 2, fun k => 97 + k⟩], [⟨0, 0, 2⟩, ⟨0, 0, 2⟩]⟩ 0 1
      .caseSensitive npos = 0 :=
  (C7_compare_amended ⟨[⟨2, 2, fun k => 97 + k⟩], [⟨0, 0, 2⟩, ⟨0, 0, 2⟩]⟩ 0 1
    .caseSensitive npos).1 (by decide) (by decide) (by decide)

section EqOpHelpers

theorem windowRead_one (d : Nat → Nat) (x : Nat) : windowRead d x 1 = [d x] := by
  simp [windowRead, List.range_succ]

theorem compareOp_cmpBytes (s : SBufState) (i j : Nat) (cs : SBufCaseSensitive)
    (m : Int) :
    compareOp s i j cs m =
      cmpBytes cs ((readView s i).take (effLen (viewAt s i).len m))
        ((readView s j).take (effLen (viewAt s j).len m)) := by
  by_cases hfast : (viewAt s i).store = (viewAt s j).store ∧
      (viewAt s i).off = (viewAt s j).off ∧
      effLen (viewAt s i).len m = effLen (viewAt s j).len m
  · have h0 : compareOp s i j cs m = 0 := by
      simp only [compareOp]
      rw [if_pos hfast]
    rw [h0, readView_take_effLen, readView_take_effLen,
      hfast.1, hfast.2.1, hfast.2.2, cmpBytes_self]
  · simp only [compareOp]
    rw [if_neg hfast]

theorem readView_take_full (s : SBufState) (t : Nat) :
    (readView s t).take (effLen (viewAt s t).len npos) = readView s t := by
  have h1 : effLen (viewAt s t).len npos = (viewAt s t).len := by
    unfold effLen
    rw [if_pos rfl]
  rw [h1]
  have hl : (readView s t).length = (viewAt s t).len := by
    unfold readView
    exact windowRead_length _ _ _
  rw [← hl, List.take_length]

theorem eqOp_iff_readView (s : SBufState) (i j : Nat) :
    eqOp s i j = true ↔ readView s i = readView s j := by
  simp only [eqOp, decide_eq_true_eq]
  rw [compareOp_cmpBytes, readView_take_full, readView_take_full]
  exact cmpBytes_zero_iff _ _

/-- Equality of SBufs is determined by their contents, so any operation that
preserves the contents of two views preserves their `==`-relation. -/
theorem eqOp_congr (s1 s2 : SBufState) (i j : Nat)
    (hci : readView s1 i = readView s2 i) (hcj : readView s1 j = readView s2 j) :
    eqOp s1 i j = eqOp s2 i j := by
  have h1 := eqOp_iff_readView s1 i j
  have h2 := eqOp_iff_readView s2 i j
  rw [hci, hcj] at h1
  by_cases hc : readView s2 i = readView s2 j
  · rw [h1.mpr hc, h2.mpr hc]
  · have e1 : eqOp s1 i j = false := by
      cases hE : eqOp s1 i j
      · rfl
      · exact absurd (h1.mp hE) hc
    have e2 : eqOp s2 i j = false := by
      cases hE : eqOp s2 i j
      · rfl
      · exact absurd (h2.mp hE) hc
    rw [e1, e2]

end EqOpHelpers

/-- Counterexample to claim C8 as stated: a full SBuf of `maxSize` bytes
(`off = 0`, `len = size = capacity = maxSize`) admits no `c_str`: producing
`len + 1` readable bytes would need capacity `maxSize + 1`, above the hard
cap, so the call fails with `SBufTooBigException` instead of returning a
terminated buffer. -/
theorem C8_c_str_counterexample :
    cStrEx ⟨[⟨maxSize, maxSize, fun _ => 0⟩], [⟨0, 0, maxSize⟩]⟩ 0 =
      .error .SBufTooBigException := by
  have h1 : ¬ ((viewAt ⟨[⟨maxSize, maxSize, fun _ => 0⟩], [⟨0, 0, maxSize⟩]⟩ 0).off +
        (viewAt ⟨[⟨maxSize, maxSize, fun _ => 0⟩], [⟨0, 0, maxSize⟩]⟩ 0).len =
      (blobAt ⟨[⟨maxSize, maxSize, fun _ => 0⟩], [⟨0, 0, maxSize⟩]⟩
        (viewAt ⟨[⟨maxSize, maxSize, fun _ => 0⟩], [⟨0, 0, maxSize⟩]⟩ 0).store).size ∧
      (blobAt ⟨[⟨maxSize, maxSize, fun _ => 0⟩], [⟨0, 0, maxSize⟩]⟩
        (viewAt ⟨[⟨maxSize, maxSize, fun _ => 0⟩], [⟨0, 0, maxSize⟩]⟩ 0).store).size <
      (blobAt ⟨[⟨maxSize, maxSize, fun _ => 0⟩], [⟨0, 0, maxSize⟩]⟩
        (viewAt ⟨[⟨maxSize, maxSize, fun _ => 0⟩], [⟨0, 0, maxSize⟩]⟩ 0).store).capacity ∧
      refcount ⟨[⟨maxSize, maxSize, fun _ => 0⟩], [⟨0, 0, maxSize⟩]⟩
        (viewAt ⟨[⟨maxSize, maxSize, fun _ => 0⟩], [⟨0, 0, maxSize⟩]⟩ 0).store = 1) := by
    intro h
    have := h.2.1
    revert this
    decide
  have h2 : maxSize <
      (viewAt ⟨[⟨maxSize, maxSize, fun _ => 0⟩], [⟨0, 0, maxSize⟩]⟩ 0).len + 1 := by
    decide
  simp only [cStrEx]
  rw [if_neg h1, if_pos h2]

/-- Claim C8 (amended): for every well-formed SBuf with `len < maxSize`,
`c_str()` succeeds and exposes `len + 1` readable bytes: the view's bytes
followed by a 0 terminator; the call changes neither `len`, nor the
observable content, nor the content or `==`-equality of any sibling view. -/
theorem C8_c_str_amended (s : SBufState) (i : Nat) (hwf : WfState s)
    (hi : i < s.views.length) (hlen : (viewAt s i).len < maxSize) :
    ∃ s' out, cStrEx s i = .ok (s', out) ∧
      out = readView s i ++ [0] ∧
      (viewAt s' i).len = (viewAt s i).len ∧
      readView s' i = readView s i ∧
      ∀ j, j < s.views.length → j ≠ i →
        viewAt s' j = viewAt s j ∧ readView s' j = readView s j ∧
        eqOp s' i j = eqOp s i j := by
  have hb : (viewAt s i).store < s.blobs.length := (hwf.view_facts hi).1
  have hwin := (hwf.view_facts hi).2.2
  by_cases hfastc : (viewAt s i).off + (viewAt s i).len =
        (blobAt s (viewAt s i).store).size ∧
      (blobAt s (viewAt s i).store).size < (blobAt s (viewAt s i).store).capacity ∧
      refcount s (viewAt s i).store = 1
  · set T1 := updBlob s (viewAt s i).store
      (blobSetByte (blobAt s (viewAt s i).store)
        (blobAt s (viewAt s i).store).size 0) with hT1def
    have heq : cStrEx s i = .ok
        (T1, windowRead (blobAt T1 (viewAt s i).store).data (viewAt s i).off
          ((viewAt s i).len + 1)) := by
      simp only [cStrEx]
      rw [if_pos hfastc]
    have hT1b : blobAt T1 (viewAt s i).store =
        blobSetByte (blobAt s (viewAt s i).store)
          (blobAt s (viewAt s i).store).size 0 :=
      blobAt_updBlob_self _ _ _ hb
    have hT1v : ∀ t, viewAt T1 t = viewAt s t := fun t => rfl
    have hfr := hfastc.1
    have hri : readView T1 i = readView s i := by
      apply readView_congr_state i i (hT1v i)
      intro k hk
      rw [hT1v i, hT1b]
      exact blobSetByte_data_ne _ _ _ _ (by omega)
    have hrj : ∀ j, j < s.views.length → j ≠ i → readView T1 j = readView s j := by
      intro j hj hji
      apply readView_congr_state j j (hT1v j)
      intro k hk
      rw [hT1v j]
      by_cases hsame : (viewAt s j).store = (viewAt s i).store
      · have hjw := (hwf.view_facts hj).2.2
        rw [hsame] at hjw ⊢
        rw [hT1b]
        exact blobSetByte_data_ne _ _ _ _ (by omega)
      · rw [hT1def, blobAt_updBlob_ne _ _ _ _ (fun h => hsame h.symm)]
    refine ⟨T1, _, heq, ?_, ?_, hri, ?_⟩
    · rw [hT1b, windowRead_add, windowRead_one, hfr, blobSetByte_data_self]
      congr 1
      rw [← hri]
      unfold readView
      rw [hT1v i, hT1b]
    · exact congrArg SBufView.len (hT1v i)
    · intro j hj hji
      exact ⟨hT1v j, hrj j hj hji, eqOp_congr T1 s i j hri (hrj j hj hji)⟩
  · have hnof : ¬ maxSize < (viewAt s i).len + 1 := by omega
    have hcf : ¬ CowFast s i ((viewAt s i).len + 1) := by
      rintro ⟨h1, h2, h3, h4⟩
      exact hfastc ⟨by omega, by omega, h1⟩
    have hv1 : viewAt (cowOp s i ((viewAt s i).len + 1)) i =
        ⟨s.blobs.length, 0, (viewAt s i).len⟩ :=
      cowOp_slow_view s i _ hi hcf
    have hv1s : (viewAt (cowOp s i ((viewAt s i).len + 1)) i).store = s.blobs.length := by
      rw [hv1]
    have hv1o : (viewAt (cowOp s i ((viewAt s i).len + 1)) i).off = 0 := by
      rw [hv1]
    have hv1l : (viewAt (cowOp s i ((viewAt s i).len + 1)) i).len = (viewAt s i).len := by
      rw [hv1]
    have hb1 : blobAt (cowOp s i ((viewAt s i).len + 1)) s.blobs.length =
        cowBlob s i ((viewAt s i).len + 1) :=
      cowOp_slow_blob s i _ hcf
    have hbl1 : (cowOp s i ((viewAt s i).len + 1)).blobs.length = s.blobs.length + 1 :=
      cowOp_slow_blobs_length s i _ hcf
    set s1 := cowOp s i ((viewAt s i).len + 1) with hs1
    set T2 := updBlob s1 (viewAt s1 i).store
      (blobSetByte (blobAt s1 (viewAt s1 i).store) (viewAt s1 i).len 0) with hT2def
    have heq : cStrEx s i = .ok
        (T2, windowRead (blobAt T2 (viewAt s1 i).store).data (viewAt s1 i).off
          ((viewAt s i).len + 1)) := by
      simp only [cStrEx]
      rw [if_neg hfastc, if_neg hnof]
    have hT2b : blobAt T2 (viewAt s1 i).store =
        blobSetByte (blobAt s1 (viewAt s1 i).store) (viewAt s1 i).len 0 :=
      blobAt_updBlob_self _ _ _ (by rw [hv1s, hbl1]; exact Nat.lt_succ_self _)
    have hT2v : ∀ t, viewAt T2 t = viewAt s1 t := fun t => rfl
    have hfirst : windowRead (blobSetByte (blobAt s1 (viewAt s1 i).store)
        (viewAt s i).len 0).data 0 (viewAt s i).len = readView s i := by
      unfold readView
      rw [windowRead_shift (blobAt s (viewAt s i).store).data (viewAt s i).off]
      apply windowRead_congr
      intro k hk
      rw [blobSetByte_data_ne _ _ _ _ (by omega)]
      rw [hv1s, hb1]
      simp only [cowBlob, Nat.zero_add]
      rw [if_pos hk]
    have hri : readView T2 i = readView s i := by
      have hx : readView T2 i = windowRead (blobSetByte (blobAt s1 (viewAt s1 i).store)
          (viewAt s i).len 0).data 0 (viewAt s i).len := by
        unfold readView
        rw [hT2v i, hT2b, hv1o, hv1l]
      rw [hx, hfirst]
    have hrj : ∀ j, j < s.views.length → j ≠ i → readView T2 j = readView s j := by
      intro j hj hji
      have hjst : (viewAt s j).store < s.blobs.length := (hwf.view_facts hj).1
      have hvj : viewAt T2 j = viewAt s j := by
        rw [hT2v j, hs1]
        exact cowOp_view_ne s i j _ (fun h => hji h.symm)
      apply readView_congr_state j j hvj
      intro k hk
      rw [hvj]
      rw [hT2def, blobAt_updBlob_ne _ _ _ _ (by rw [hv1s]; omega)]
      rw [hs1, cowOp_blob_lt s i _ _ hjst]
    refine ⟨T2, _, heq, ?_, ?_, hri, ?_⟩
    · rw [hT2b, hv1o, hv1l, windowRead_add, windowRead_one, Nat.zero_add,
        blobSetByte_data_self, hfirst]
    · rw [show (viewAt T2 i).len = (viewAt s1 i).len from congrArg SBufView.len (hT2v i),
        hv1l]
    · intro j hj hji
      have hvj : viewAt T2 j = viewAt s j := by
        rw [hT2v j, hs1]
        exact cowOp_view_ne s i j _ (fun h => hji h.symm)
      exact ⟨hvj, hrj j hj hji, eqOp_congr T2 s i j hri (hrj j hj hji)⟩

/-- Witness for the amended C8 at a concrete two-byte buffer. -/
theorem C8_c_str_amended_witness :
    ∃ s' out, cStrEx ⟨[⟨4, 2, fun k => k + 65⟩], [⟨0, 0, 2⟩]⟩ 0 = .ok (s', out) ∧
      out = readView ⟨[⟨4, 2, fun k => k + 65⟩], [⟨0, 0, 2⟩]⟩ 0 ++ [0] ∧
      (viewAt s' 0).len = (viewAt (⟨[⟨4, 2, fun k => k + 65⟩], [⟨0, 0, 2⟩]⟩ : SBufState) 0).len ∧
      readView s' 0 = readView ⟨[⟨4, 2, fun k => k + 65⟩], [⟨0, 0, 2⟩]⟩ 0 ∧
      ∀ j, j < (⟨[⟨4, 2, fun k => k + 65⟩], [⟨0, 0, 2⟩]⟩ : SBufState).views.length → j ≠ 0 →
        viewAt s' j = viewAt ⟨[⟨4, 2, fun k => k + 65⟩], [⟨0, 0, 2⟩]⟩ j ∧
        readView s' j = readView ⟨[⟨4, 2, fun k => k + 65⟩], [⟨0, 0, 2⟩]⟩ j ∧
        eqOp s' 0 j = eqOp ⟨[⟨4, 2, fun k => k + 65⟩], [⟨0, 0, 2⟩]⟩ 0 j :=
  C8_c_str_amended ⟨[⟨4, 2, fun k => k + 65⟩], [⟨0, 0, 2⟩]⟩ 0
    (by decide) (by decide) (by decide)

section ScanHelpers

theorem scanFrom_some (d : Nat → Nat) (off c : Nat) :
    ∀ (r k m : Nat), scanFrom d off c k r = some m →
      k ≤ m ∧ m < k + r ∧ d (off + m) = c ∧
        ∀ t, k ≤ t → t < m → d (off + t) ≠ c := by
  intro r
  induction r with
  | zero => intro k m h; exact absurd h (by simp [scanFrom])
  | succ r ih =>
    intro k m h
    simp only [scanFrom] at h
    by_cases hd : d (off + k) = c
    · rw [if_pos hd] at h
      rcases Option.some.inj h with rfl
      exact ⟨Nat.le_refl _, by omega, hd, fun t ht1 ht2 => by omega⟩
    · rw [if_neg hd] at h
      rcases ih (k + 1) m h with ⟨h1, h2, h3, h4⟩
      refine ⟨by omega, by omega, h3, ?_⟩
      intro t ht1 ht2
      rcases Nat.eq_or_lt_of_le ht1 with rfl | hlt
      · exact hd
      · exact h4 t (by omega) ht2

theorem scanFrom_none (d : Nat → Nat) (off c : Nat) :
    ∀ (r k : Nat), scanFrom d off c k r = none →
      ∀ t, k ≤ t → t < k + r → d (off + t) ≠ c := by
  intro r
  induction r with
  | zero => intro k _ t ht1 ht2; exact absurd ht2 (by omega)
  | succ r ih =>
    intro k h t ht1 ht2
    simp only [scanFrom] at h
    by_cases hd : d (off + k) = c
    · rw [if_pos hd] at h; exact absurd h (by simp)
    · rw [if_neg hd] at h
      rcases Nat.eq_or_lt_of_le ht1 with rfl | hlt
      · exact hd
      · exact ih (k + 1) h t (by omega) (by omega)

end ScanHelpers

/-- Claim C9: `find(c, startPos)` scans forward from `max(startPos, 0)` and
returns the leftmost index at or after it whose byte is `c`, or `npos` on a
miss; `startPos = npos` always yields `npos` (checked before the
negative-position clamp), and `startPos > len` yields `npos` rather than
being a precondition violation. -/
theorem C9_find (s : SBufState) (i : Nat) (c : Nat) (startPos : Int) :
    (startPos = npos → findOp s i c startPos = npos) ∧
    (startPos ≠ npos →
      (((viewAt s i).len : Int) < startPos → findOp s i c startPos = npos) ∧
      (findOp s i c startPos = npos ↔
        ∀ k : Nat, (max startPos 0).toNat ≤ k → k < (viewAt s i).len →
          (blobAt s (viewAt s i).store).data ((viewAt s i).off + k) ≠ c) ∧
      (∀ r : Nat, findOp s i c startPos = (r : Int) →
        (max startPos 0).toNat ≤ r ∧ r < (viewAt s i).len ∧
        (blobAt s (viewAt s i).store).data ((viewAt s i).off + r) = c ∧
        ∀ t : Nat, (max startPos 0).toNat ≤ t → t < r →
          (blobAt s (viewAt s i).store).data ((viewAt s i).off + t) ≠ c)) := by
  by_cases hn : startPos = npos
  · refine ⟨fun _ => ?_, fun hn' => absurd hn hn'⟩
    simp only [findOp]
    rw [if_pos hn]
  · refine ⟨fun h => absurd h hn, fun _ => ?_⟩
    set start := (max startPos 0).toNat with hstart
    have hfind : findOp s i c startPos =
        match scanFrom (blobAt s (viewAt s i).store).data (viewAt s i).off c start
          ((viewAt s i).len - start) with
        | some k => (k : Int)
        | none => npos := by
      simp only [findOp]
      rw [if_neg hn]
    cases hscan : scanFrom (blobAt s (viewAt s i).store).data (viewAt s i).off c start
        ((viewAt s i).len - start) with
    | some m =>
      rw [hscan] at hfind
      have hfind2 : findOp s i c startPos = (m : Int) := by rw [hfind]
      rcases scanFrom_some _ _ _ _ _ _ hscan with ⟨h1, h2, h3, h4⟩
      have hmlen : m < (viewAt s i).len := by omega
      refine ⟨?_, ?_, ?_⟩
      · intro hgt
        exfalso
        omega
      · rw [hfind]
        apply iff_of_false
        · simp only [npos]
          omega
        · intro hall
          exact hall m h1 hmlen h3
      · intro r hr
        rw [hfind2] at hr
        have hmr : m = r := by omega
        subst hmr
        exact ⟨h1, hmlen, h3, fun t ht1 ht2 => h4 t ht1 ht2⟩
    | none =>
      rw [hscan] at hfind
      have hnone := scanFrom_none _ _ _ _ _ hscan
      refine ⟨fun _ => hfind, ?_, ?_⟩
      · rw [hfind]
        apply iff_of_true rfl
        intro k hk1 hk2
        exact hnone k hk1 (by omega)
      · intro r hr
        rw [hfind] at hr
        exact absurd hr (by simp only [npos]; omega)

/-- Witness for C9: searching from a start position beyond the length
returns `npos`. -/
theorem C9_find_witness :
    findOp ⟨[⟨3, 3, fun k => 97 + k⟩], [⟨0, 0, 3⟩]⟩ 0 99 5 = npos :=
  ((C9_find ⟨[⟨3, 3, fun k => 97 + k⟩], [⟨0, 0, 3⟩]⟩ 0 99 5).2 (by decide)).1 (by decide)

/-- Claim C10: for every well-formed SBuf, `plength()` never throws — its
documented `SBufTooBigException` branch is unreachable, because
`maxSize = 0xfffffff` is strictly below the maximum signed 32-bit int, and
indeed below half of it, so `length()` always fits in a signed `int`. -/
theorem C10_plength_total (s : SBufState) (i : Nat) (hwf : WfState s) :
    plengthEx s i = .ok ((viewAt s i).len : Int) ∧ 2 * maxSize < 2 ^ 31 - 1 := by
  have hlen := viewAt_len_le_maxSize s hwf i
  have h31 : (2 : Nat) ^ 31 - 1 = 2147483647 := by norm_num
  constructor
  · unfold plengthEx
    rw [if_neg ?_]
    rw [h31]
    unfold maxSize at hlen
    omega
  · rw [h31]
    unfold maxSize
    omega

/-- Witness for C10 at a concrete two-byte buffer. -/
theorem C10_plength_total_witness :
    plengthEx ⟨[⟨4, 2, fun k => k + 65⟩], [⟨0, 0, 2⟩]⟩ 0 = .ok 2 ∧
      2 * maxSize < 2 ^ 31 - 1 :=
  C10_plength_total ⟨[⟨4, 2, fun k => k + 65⟩], [⟨0, 0, 2⟩]⟩ 0 (by decide)
